import Mathlib

/-!
# Verification of the `Cart` aggregate (src/class/cart.ts)

A shallow embedding of the TypeScript `Cart` class.  JavaScript `Map`s are
modelled as association lists in insertion order (`set` updates in place or
appends, `delete` removes, iteration follows list order).  Unit prices and
monetary amounts are modelled as rationals (every finite double is rational);
quantities, percents and thresholds as integers, the `Number.isInteger`
validation being absorbed by the type.  Methods that can `throw` return
`Except CartError`; since in the source every `throw` happens before any
mutation of `this`, an `Except.error` result corresponds exactly to "the
exception propagates and the cart is untouched".  A separate `JsNumber` type
models the full JavaScript number domain (NaN and the infinities included)
for the price-validation guard, whose source code never checks finiteness.
-/

/-- Error kinds, one per distinct `throw new Error(...)` message in the source. -/
inductive CartError : Type where
  /-- "Reference must be a non-empty string" -/
  | invalidReference : CartError
  /-- "Price must be a positive number" -/
  | invalidPrice : CartError
  /-- "Quantity must be a positive integer" -/
  | invalidQuantity : CartError
  /-- "Reference not found in cart" -/
  | referenceNotFound : CartError
  /-- "Price not found for reference" -/
  | priceNotFound : CartError
  /-- "Insufficient quantity to remove" -/
  | insufficientQuantity : CartError
  /-- "Promotion code must be a non-empty string" -/
  | invalidPromotionCode : CartError
  /-- "Promotion percent must be an integer in (0, 100)" -/
  | invalidPercent : CartError
  /-- "Promotion threshold must be an integer >= 2" -/
  | invalidThreshold : CartError
  /-- "Promotion reference must not be in cart" -/
  | promotionReferenceConflict : CartError
  /-- "Promotion code already registered" -/
  | promotionCodeConflict : CartError
deriving DecidableEq, Repr

deriving instance DecidableEq for Except

/-- Whitespace stripped from both ends of a character list. -/
def jsTrimList (l : List Char) : List Char :=
  ((l.dropWhile Char.isWhitespace).reverse.dropWhile Char.isWhitespace).reverse

/-- JavaScript `String.prototype.trim`: whitespace stripped from both ends. -/
def jsTrim (s : String) : String :=
  String.mk (jsTrimList s.data)

/-- Association-list lookup: the model of `Map.prototype.get`. -/
def alGet {α β : Type} [DecidableEq α] : List (α × β) → α → Option β
  | [], _ => none
  | e :: l, k => if e.1 = k then some e.2 else alGet l k

/-- Association-list update: the model of `Map.prototype.set` (replace in
place when the key exists, append otherwise — JS `Map` insertion order). -/
def alSet {α β : Type} [DecidableEq α] : List (α × β) → α → β → List (α × β)
  | [], k, v => [(k, v)]
  | e :: l, k, v => if e.1 = k then (k, v) :: l else e :: alSet l k v

/-- Association-list removal: the model of `Map.prototype.delete`. -/
def alDel {α β : Type} [DecidableEq α] : List (α × β) → α → List (α × β)
  | [], _ => []
  | e :: l, k => if e.1 = k then alDel l k else e :: alDel l k

/-- The model of `Map.prototype.has`. -/
def alHas {α β : Type} [DecidableEq α] (l : List (α × β)) (k : α) : Bool :=
  (alGet l k).isSome

/-- `type PriceBucket = Map<number, number>`: unit price → quantity. -/
abbrev Bucket : Type := List (ℚ × ℤ)

/-- The `PercentPromotion` variant of `PromotionRule`. -/
structure PercentPromotion : Type where
  reference : String
  percent : ℤ
  minPrice : Option ℚ
  activated : Bool
deriving DecidableEq, Repr

/-- The `BuyNGetOnePromotion` variant of `PromotionRule`. -/
structure BuyNGetOnePromotion : Type where
  reference : String
  threshold : ℤ
  activated : Bool
deriving DecidableEq, Repr

/-- `type PromotionRule = PercentPromotion | BuyNGetOnePromotion`. -/
inductive PromotionRule : Type where
  | percent (pr : PercentPromotion) : PromotionRule
  | buyNGetOne (pr : BuyNGetOnePromotion) : PromotionRule
deriving DecidableEq, Repr

/-- The `reference` field shared by both variants. -/
def PromotionRule.reference : PromotionRule → String
  | .percent pr => pr.reference
  | .buyNGetOne pr => pr.reference

/-- The `activated` field shared by both variants. -/
def PromotionRule.activated : PromotionRule → Bool
  | .percent pr => pr.activated
  | .buyNGetOne pr => pr.activated

/-- `promotion.activated = true` (the in-place flag flip in `activatePromotion`). -/
def PromotionRule.activate : PromotionRule → PromotionRule
  | .percent pr => .percent { pr with activated := true }
  | .buyNGetOne pr => .buyNGetOne { pr with activated := true }

/-- The `Cart` class state: `items` and `promotions` private maps. -/
structure Cart : Type where
  items : List (String × Bucket)
  promotions : List (String × PromotionRule)
deriving DecidableEq, Repr

/-- A freshly constructed `Cart` (both maps empty). -/
def Cart.empty : Cart := ⟨[], []⟩

/-- `normalizeReference`: trim, reject the empty result. -/
def Cart.normalizeReference (reference : String) : Except CartError String :=
  let value := jsTrim reference
  if value = "" then .error .invalidReference else .ok value

/-- `normalizePromotionCode`: trim, reject the empty result. -/
def Cart.normalizePromotionCode (code : String) : Except CartError String :=
  let value := jsTrim code
  if value = "" then .error .invalidPromotionCode else .ok value

/-- `assertQuantity`: positive integer (integrality is the type ℤ). -/
def Cart.assertQuantity (quantity : ℤ) : Except CartError Unit :=
  if quantity ≤ 0 then .error .invalidQuantity else .ok ()

/-- `assertPrice` on the NaN-free rational domain: `price <= 0` rejected.
(`typeof price !== 'number'` is vacuous for a number-typed argument and
`Number.isNaN` has no rational witness; see `Cart.assertPriceNum` for the
full JavaScript number domain.) -/
def Cart.assertPrice (price : ℚ) : Except CartError Unit :=
  if price ≤ 0 then .error .invalidPrice else .ok ()

/-- `assertPercent`: integer strictly between 0 and 100. -/
def Cart.assertPercent (percent : ℤ) : Except CartError Unit :=
  if percent ≤ 0 ∨ 100 ≤ percent then .error .invalidPercent else .ok ()

/-- `assertThreshold`: integer `>= 2`. -/
def Cart.assertThreshold (threshold : ℤ) : Except CartError Unit :=
  if threshold < 2 then .error .invalidThreshold else .ok ()

/-- `resolveBucket`: normalize the reference, look the bucket up, create it
when asked to.  Returns the possibly extended cart (the `this` object after
the call). -/
def Cart.resolveBucket (c : Cart) (reference : String) (createIfMissing : Bool) :
    Except CartError (String × Bucket × Cart) := do
  let refKey ← Cart.normalizeReference reference
  match alGet c.items refKey with
  | some bucket => .ok (refKey, bucket, c)
  | none =>
    if createIfMissing then
      let bucket : Bucket := []
      .ok (refKey, bucket, { c with items := alSet c.items refKey bucket })
    else
      .error .referenceNotFound

/-- `getExistingBucket` = `resolveBucket(reference, false)`. -/
def Cart.getExistingBucket (c : Cart) (reference : String) :
    Except CartError (String × Bucket × Cart) :=
  Cart.resolveBucket c reference false

/-- `getOrCreateBucket` = `resolveBucket(reference, true)`. -/
def Cart.getOrCreateBucket (c : Cart) (reference : String) :
    Except CartError (String × Bucket × Cart) :=
  Cart.resolveBucket c reference true

/-- `sumQuantities`: total of the stored quantities of one bucket. -/
def Cart.sumQuantities (bucket : Bucket) : ℤ :=
  (bucket.map Prod.snd).sum

/-- `sortPrices`: the bucket's price keys, sorted ascending (`asc = true`,
comparator `a - b`) or descending (`asc = false`, comparator `b - a`). -/
def Cart.sortPrices (bucket : Bucket) (asc : Bool) : List ℚ :=
  if asc then (bucket.map Prod.fst).insertionSort (· ≤ ·)
  else (bucket.map Prod.fst).insertionSort (fun a b => b ≤ a)

/-- `getQuantityForPrice`: validate the price, then look it up in the bucket. -/
def Cart.getQuantityForPrice (bucket : Bucket) (price : ℚ) : Except CartError ℤ := do
  let _ ← Cart.assertPrice price
  match alGet bucket price with
  | none => .error .priceNotFound
  | some quantity => .ok quantity

/-- `add`: validate price then quantity, resolve/create the bucket, merge the
quantity into the entry at that exact price. -/
def Cart.add (c : Cart) (reference : String) (price : ℚ) (quantity : ℤ) :
    Except CartError Cart := do
  let _ ← Cart.assertPrice price
  let _ ← Cart.assertQuantity quantity
  let (refKey, bucket, c₁) ← Cart.getOrCreateBucket c reference
  let existingQuantity := (alGet bucket price).getD 0
  .ok { c₁ with items := alSet c₁.items refKey (alSet bucket price (existingQuantity + quantity)) }

/-- The consumption loop of `remove`: walk the price list, drain each entry
(delete when fully consumed, keep the remainder otherwise), stop when the
requested amount is exhausted. -/
def Cart.removeLoop : Bucket → List ℚ → ℤ → Bucket
  | bucket, [], _ => bucket
  | bucket, price :: rest, remaining =>
    if remaining = 0 then bucket
    else
      match alGet bucket price with
      | none => Cart.removeLoop bucket rest remaining
      | some available =>
        if available ≤ remaining then
          Cart.removeLoop (alDel bucket price) rest (remaining - available)
        else
          Cart.removeLoop (alSet bucket price (available - remaining)) rest 0

/-- `remove`: require the reference, validate the quantity, guard against
insufficiency, then drain from the most expensive entries first; delete the
reference when its bucket becomes empty. -/
def Cart.remove (c : Cart) (reference : String) (quantity : ℤ) :
    Except CartError Cart := do
  let (refKey, bucket, c₁) ← Cart.getExistingBucket c reference
  let _ ← Cart.assertQuantity quantity
  let totalQuantity := Cart.sumQuantities bucket
  if totalQuantity < quantity then .error .insufficientQuantity
  else
    let bucket' := Cart.removeLoop bucket (Cart.sortPrices bucket false) quantity
    if bucket' = [] then .ok { c₁ with items := alDel c₁.items refKey }
    else .ok { c₁ with items := alSet c₁.items refKey bucket' }

/-- `findApplicablePercentPromotion`'s scan over the promotion registry:
first active percent rule on the reference whose optional `minPrice` does
not exceed the price. -/
def Cart.findApplicablePercentAux (reference : String) (price : ℚ) :
    List (String × PromotionRule) → Option PercentPromotion
  | [] => none
  | e :: rest =>
    match e.2 with
    | .buyNGetOne _ => Cart.findApplicablePercentAux reference price rest
    | .percent pr =>
      if pr.reference ≠ reference then Cart.findApplicablePercentAux reference price rest
      else if pr.activated = false then Cart.findApplicablePercentAux reference price rest
      else
        match pr.minPrice with
        | some minPrice =>
          if price < minPrice then Cart.findApplicablePercentAux reference price rest
          else some pr
        | none => some pr

/-- `findApplicablePercentPromotion` on the cart's registry. -/
def Cart.findApplicablePercentPromotion (c : Cart) (reference : String) (price : ℚ) :
    Option PercentPromotion :=
  Cart.findApplicablePercentAux reference price c.promotions

/-- `getDiscountedPrice`: apply the applicable percent promotion, if any. -/
def Cart.getDiscountedPrice (c : Cart) (reference : String) (price : ℚ) : ℚ :=
  match Cart.findApplicablePercentPromotion c reference price with
  | none => price
  | some promotion => price * (1 - (promotion.percent : ℚ) / 100)

/-- `findActiveBuyNPromotion`'s scan: first activated buy-N-get-one rule on
the reference. -/
def Cart.findActiveBuyNAux (reference : String) :
    List (String × PromotionRule) → Option BuyNGetOnePromotion
  | [] => none
  | e :: rest =>
    match e.2 with
    | .percent _ => Cart.findActiveBuyNAux reference rest
    | .buyNGetOne pr =>
      if pr.activated = false then Cart.findActiveBuyNAux reference rest
      else if pr.reference ≠ reference then Cart.findActiveBuyNAux reference rest
      else some pr

/-- `findActiveBuyNPromotion` on the cart's registry. -/
def Cart.findActiveBuyNPromotion (c : Cart) (reference : String) :
    Option BuyNGetOnePromotion :=
  Cart.findActiveBuyNAux reference c.promotions

/-- The allocation loop of `buildFreebieAllocation`: hand the free units to
the (ascending-sorted) price entries, consuming each entry's available
quantity before moving on. -/
def Cart.allocLoop (bucket : Bucket) : List ℚ → ℤ → List (ℚ × ℤ)
  | [], _ => []
  | price :: rest, freebies =>
    if freebies ≤ 0 then []
    else
      let available := (alGet bucket price).getD 0
      if available ≤ 0 then Cart.allocLoop bucket rest freebies
      else
        let used := min available freebies
        (price, used) :: Cart.allocLoop bucket rest (freebies - used)

/-- `buildFreebieAllocation`: per-price map of free units granted by the
active buy-N-get-one promotion (`floor(total / (threshold+1))` units, cheapest
entries first). -/
def Cart.buildFreebieAllocation (c : Cart) (reference : String) (bucket : Bucket) :
    List (ℚ × ℤ) :=
  match Cart.findActiveBuyNPromotion c reference with
  | none => []
  | some promotion =>
    let block := promotion.threshold + 1
    if block ≤ 0 then []
    else
      let totalUnits := Cart.sumQuantities bucket
      let freebies := Int.fdiv totalUnits block
      if freebies ≤ 0 then []
      else Cart.allocLoop bucket (Cart.sortPrices bucket true) freebies

/-- `calculateBucketAmount`: per-entry payable amounts, summed. -/
def Cart.calculateBucketAmount (c : Cart) (reference : String) (bucket : Bucket) : ℚ :=
  let freebies := Cart.buildFreebieAllocation c reference bucket
  (bucket.map (fun pq =>
    let freeUnits := (alGet freebies pq.1).getD 0
    let payable := max 0 (pq.2 - freeUnits)
    Cart.getDiscountedPrice c reference pq.1 * (payable : ℚ))).sum

/-- `getTotalAmount`: sum of every reference's bucket amount; total function,
never throws. -/
def Cart.getTotalAmount (c : Cart) : ℚ :=
  (c.items.map (fun rb => Cart.calculateBucketAmount c rb.1 rb.2)).sum

/-- `getReferences`: the stored reference keys, sorted. -/
def Cart.getReferences (c : Cart) : List String :=
  (c.items.map Prod.fst).insertionSort (· ≤ ·)

/-- `getUnitPrices`: ascending price keys of an existing reference.  The
returned cart is the `this` object after the call. -/
def Cart.getUnitPrices (c : Cart) (reference : String) :
    Except CartError (List ℚ × Cart) := do
  let (_, bucket, c₁) ← Cart.getExistingBucket c reference
  .ok (Cart.sortPrices bucket true, c₁)

/-- `getQuantity`: with no price, the bucket total; with a price, the exact
entry's quantity. -/
def Cart.getQuantity (c : Cart) (reference : String) (price : Option ℚ) :
    Except CartError (ℤ × Cart) := do
  let (_, bucket, c₁) ← Cart.getExistingBucket c reference
  match price with
  | none => .ok (Cart.sumQuantities bucket, c₁)
  | some p => do
    let quantity ← Cart.getQuantityForPrice bucket p
    .ok (quantity, c₁)

/-- `getAmount`: payable amount of one (reference, price) tuple, free units
deducted, percent discount applied.  Note the source passes the *raw*
`reference` argument (not the trimmed `refKey`) to `buildFreebieAllocation`
and `getDiscountedPrice`. -/
def Cart.getAmount (c : Cart) (reference : String) (price : ℚ) :
    Except CartError (ℚ × Cart) := do
  let (_, bucket, c₁) ← Cart.getExistingBucket c reference
  let quantity ← Cart.getQuantityForPrice bucket price
  let freebies := Cart.buildFreebieAllocation c₁ reference bucket
  let freeUnits := (alGet freebies price).getD 0
  let payable := max 0 (quantity - freeUnits)
  .ok (Cart.getDiscountedPrice c₁ reference price * (payable : ℚ), c₁)

/-- `registerPromotion`: validate, reject references already in the cart and
codes already registered, store an inactive percent rule. -/
def Cart.registerPromotion (c : Cart) (code reference : String) (percent : ℤ)
    (minPrice : Option ℚ) : Except CartError Cart := do
  let promoCode ← Cart.normalizePromotionCode code
  let refKey ← Cart.normalizeReference reference
  let _ ← Cart.assertPercent percent
  let _ ← match minPrice with
    | some mp => Cart.assertPrice mp
    | none => .ok ()
  if alHas c.items refKey then .error .promotionReferenceConflict
  else if alHas c.promotions promoCode then .error .promotionCodeConflict
  else
    .ok { c with
          promotions := alSet c.promotions promoCode (.percent ⟨refKey, percent, minPrice, false⟩) }

/-- `registerBuyNGetOnePromotion`: same conflicts, threshold `>= 2`, store an
inactive buy-N-get-one rule. -/
def Cart.registerBuyNGetOnePromotion (c : Cart) (code reference : String)
    (threshold : ℤ) : Except CartError Cart := do
  let promoCode ← Cart.normalizePromotionCode code
  let refKey ← Cart.normalizeReference reference
  let _ ← Cart.assertThreshold threshold
  if alHas c.items refKey then .error .promotionReferenceConflict
  else if alHas c.promotions promoCode then .error .promotionCodeConflict
  else
    .ok { c with
          promotions := alSet c.promotions promoCode (.buyNGetOne ⟨refKey, threshold, false⟩) }

/-- `hasActivePromotionForReference`: is some non-excluded registered rule on
this reference already active?  (No filtering by promotion kind.) -/
def Cart.hasActivePromotionForReference (c : Cart) (reference : String)
    (excludeCode : Option String) : Bool :=
  c.promotions.any (fun e =>
    (match excludeCode with
     | some ec => decide (e.1 ≠ ec)
     | none => true)
    && decide (e.2.reference = reference) && e.2.activated)

/-- `activatePromotion`: unknown code → `false`; already active → `true`;
another active promotion on the same reference → `false`; otherwise flip the
flag and return `true`. -/
def Cart.activatePromotion (c : Cart) (code : String) :
    Except CartError (Bool × Cart) := do
  let promoCode ← Cart.normalizePromotionCode code
  match alGet c.promotions promoCode with
  | none => .ok (false, c)
  | some promotion =>
    if promotion.activated then .ok (true, c)
    else if Cart.hasActivePromotionForReference c promotion.reference (some promoCode) then
      .ok (false, c)
    else
      .ok (true, { c with promotions := alSet c.promotions promoCode promotion.activate })

/-- The sum of the quantities of the entries strictly cheaper than `P`
(the spec-side closed form of cheapest-first freebie allocation). -/
def Cart.sumBelow (bucket : Bucket) (P : ℚ) : ℤ :=
  ((bucket.filter (fun pq => pq.1 < P)).map Prod.snd).sum

/-- The sum of the quantities of the entries strictly more expensive than `P`
(the spec-side closed form of most-expensive-first removal). -/
def Cart.sumAbove (bucket : Bucket) (P : ℚ) : ℤ :=
  ((bucket.filter (fun pq => P < pq.1)).map Prod.snd).sum

/-- Sum of the looked-up quantities of the prices listed before `P`
(a proof-internal prefix sum along a sorted price list). -/
def Cart.sumUntil (bucket : Bucket) : List ℚ → ℚ → ℤ
  | [], _ => 0
  | p :: rest, P => if p = P then 0 else (alGet bucket p).getD 0 + Cart.sumUntil bucket rest P

/-- The condition of `findApplicablePercentPromotion`, as a predicate on one
registry rule: an activated percent rule on this reference whose optional
`minPrice` does not exceed the price. -/
def Cart.applicablePercentB (reference : String) (price : ℚ) : PromotionRule → Bool
  | .percent pr =>
    decide (pr.reference = reference) && pr.activated &&
      (match pr.minPrice with
       | some minPrice => decide (minPrice ≤ price)
       | none => true)
  | .buyNGetOne _ => false

/-- Well-formedness of one price bucket: distinct price keys, positive prices,
positive quantities. -/
def Cart.BucketWf (bucket : Bucket) : Prop :=
  (bucket.map Prod.fst).Nodup ∧ ∀ pq ∈ bucket, 0 < pq.1 ∧ 0 < pq.2

/-- Well-formedness of one registered promotion rule (registration validates
the threshold of a buy-N-get-one rule). -/
def Cart.PromoWf : PromotionRule → Prop
  | .percent _ => True
  | .buyNGetOne pr => 2 ≤ pr.threshold

instance : (rule : PromotionRule) → Decidable (Cart.PromoWf rule)
  | .percent _ => .isTrue trivial
  | .buyNGetOne pr => inferInstanceAs (Decidable (2 ≤ pr.threshold))

/-- The cart invariant: distinct reference keys, each stored reference
normalized and non-empty with a non-empty well-formed bucket, distinct
promotion codes, each stored rule well-formed. -/
def Cart.Wf (c : Cart) : Prop :=
  (c.items.map Prod.fst).Nodup ∧
  (∀ rb ∈ c.items, jsTrim rb.1 = rb.1 ∧ rb.1 ≠ "" ∧ rb.2 ≠ [] ∧ Cart.BucketWf rb.2) ∧
  (c.promotions.map Prod.fst).Nodup ∧
  ∀ e ∈ c.promotions, Cart.PromoWf e.2

instance (bucket : Bucket) : Decidable (Cart.BucketWf bucket) :=
  inferInstanceAs (Decidable ((bucket.map Prod.fst).Nodup ∧ ∀ pq ∈ bucket, 0 < pq.1 ∧ 0 < pq.2))

instance (c : Cart) : Decidable (Cart.Wf c) :=
  inferInstanceAs (Decidable ((c.items.map Prod.fst).Nodup ∧
    (∀ rb ∈ c.items, jsTrim rb.1 = rb.1 ∧ rb.1 ≠ "" ∧ rb.2 ≠ [] ∧ Cart.BucketWf rb.2) ∧
    (c.promotions.map Prod.fst).Nodup ∧
    ∀ e ∈ c.promotions, Cart.PromoWf e.2))

/-- Cart states reachable from a fresh cart through the public operations
(the failing runs produce no new state: an exception leaves `this` as it
was, every `throw` in the source preceding any mutation). -/
inductive Cart.Reachable : Cart → Prop where
  | empty : Cart.Reachable Cart.empty
  | add {c c' : Cart} {r : String} {p : ℚ} {q : ℤ} :
      Cart.Reachable c → Cart.add c r p q = .ok c' → Cart.Reachable c'
  | remove {c c' : Cart} {r : String} {q : ℤ} :
      Cart.Reachable c → Cart.remove c r q = .ok c' → Cart.Reachable c'
  | registerPromotion {c c' : Cart} {code ref : String} {pct : ℤ} {mp : Option ℚ} :
      Cart.Reachable c → Cart.registerPromotion c code ref pct mp = .ok c' → Cart.Reachable c'
  | registerBuyNGetOne {c c' : Cart} {code ref : String} {t : ℤ} :
      Cart.Reachable c → Cart.registerBuyNGetOnePromotion c code ref t = .ok c' → Cart.Reachable c'
  | activatePromotion {c c' : Cart} {code : String} {b : Bool} :
      Cart.Reachable c → Cart.activatePromotion c code = .ok (b, c') → Cart.Reachable c'
  | getUnitPrices {c c' : Cart} {r : String} {v : List ℚ} :
      Cart.Reachable c → Cart.getUnitPrices c r = .ok (v, c') → Cart.Reachable c'
  | getQuantity {c c' : Cart} {r : String} {po : Option ℚ} {v : ℤ} :
      Cart.Reachable c → Cart.getQuantity c r po = .ok (v, c') → Cart.Reachable c'
  | getAmount {c c' : Cart} {r : String} {p : ℚ} {v : ℚ} :
      Cart.Reachable c → Cart.getAmount c r p = .ok (v, c') → Cart.Reachable c'

/-- The full JavaScript number domain: NaN, the two infinities, and the
finite doubles (modelled as rationals). -/
inductive JsNumber : Type where
  | nan : JsNumber
  | posInf : JsNumber
  | negInf : JsNumber
  | fin (q : ℚ) : JsNumber
deriving DecidableEq, Repr

/-- JavaScript `<=` on numbers: any comparison with NaN is false. -/
def JsNumber.jsLe : JsNumber → JsNumber → Bool
  | .nan, _ => false
  | _, .nan => false
  | .negInf, _ => true
  | _, .posInf => true
  | .posInf, _ => false
  | _, .negInf => false
  | .fin a, .fin b => a ≤ b

/-- `assertPrice` over the full JavaScript number domain:
`typeof price !== 'number'` (vacuous for a number argument), then
`Number.isNaN(price) || price <= 0`.  There is no finiteness check. -/
def Cart.assertPriceNum (price : JsNumber) : Except CartError Unit :=
  if price = JsNumber.nan ∨ JsNumber.jsLe price (JsNumber.fin 0) = true then
    .error .invalidPrice
  else .ok ()

/-! ## Association-list lemmas -/

theorem alGet_alSet_self {α β : Type} [DecidableEq α] (l : List (α × β)) (k : α) (v : β) :
    alGet (alSet l k v) k = some v := by
  induction l with
  | nil => simp [alGet, alSet]
  | cons e l ih =>
    by_cases h : e.1 = k
    · simp [alGet, alSet, h]
    · simp [alGet, alSet, h, ih]

theorem alGet_alSet_ne {α β : Type} [DecidableEq α] (l : List (α × β)) (k k' : α) (v : β)
    (h : k' ≠ k) : alGet (alSet l k v) k' = alGet l k' := by
  induction l with
  | nil =>
    simp only [alSet, alGet]
    rw [if_neg (Ne.symm h)]
  | cons e l ih =>
    by_cases he : e.1 = k
    · have h1 : alSet (e :: l) k v = (k, v) :: l := by simp [alSet, he]
      have h2 : ¬ e.1 = k' := by rw [he]; exact Ne.symm h
      rw [h1]
      simp only [alGet]
      rw [if_neg (Ne.symm h), if_neg h2]
    · have h1 : alSet (e :: l) k v = e :: alSet l k v := by simp [alSet, he]
      rw [h1]
      simp only [alGet, ih]

theorem alGet_alDel_self {α β : Type} [DecidableEq α] (l : List (α × β)) (k : α) :
    alGet (alDel l k) k = none := by
  induction l with
  | nil => simp [alGet, alDel]
  | cons e l ih =>
    by_cases h : e.1 = k
    · simp [alDel, h, ih]
    · simp [alGet, alDel, h, ih]

theorem alGet_alDel_ne {α β : Type} [DecidableEq α] (l : List (α × β)) (k k' : α)
    (h : k' ≠ k) : alGet (alDel l k) k' = alGet l k' := by
  induction l with
  | nil => simp [alDel]
  | cons e l ih =>
    by_cases he : e.1 = k
    · have h1 : alDel (e :: l) k = alDel l k := by simp [alDel, he]
      have h2 : ¬ e.1 = k' := by rw [he]; exact Ne.symm h
      rw [h1, ih]
      simp only [alGet]
      rw [if_neg h2]
    · have h1 : alDel (e :: l) k = e :: alDel l k := by simp [alDel, he]
      rw [h1]
      simp only [alGet, ih]

theorem alDel_sublist {α β : Type} [DecidableEq α] (l : List (α × β)) (k : α) :
    (alDel l k).Sublist l := by
  induction l with
  | nil => simp [alDel]
  | cons e l ih =>
    by_cases h : e.1 = k
    · simp only [alDel, if_pos h]
      exact ih.cons e
    · simp only [alDel, if_neg h]
      exact ih.cons₂ e

theorem mem_alDel {α β : Type} [DecidableEq α] {l : List (α × β)} {k : α} {e : α × β}
    (h : e ∈ alDel l k) : e ∈ l := (alDel_sublist l k).mem h

theorem mem_alSet {α β : Type} [DecidableEq α] {l : List (α × β)} {k : α} {v : β} {e : α × β}
    (h : e ∈ alSet l k v) : e ∈ l ∨ e = (k, v) := by
  induction l with
  | nil => simpa [alSet] using h
  | cons e' l ih =>
    by_cases he : e'.1 = k
    · simp only [alSet, if_pos he, List.mem_cons] at h
      rcases h with h | h
      · exact Or.inr h
      · exact Or.inl (List.mem_cons_of_mem _ h)
    · simp only [alSet, if_neg he, List.mem_cons] at h
      rcases h with h | h
      · exact Or.inl (h ▸ List.mem_cons_self _ _)
      · rcases ih h with h | h
        · exact Or.inl (List.mem_cons_of_mem _ h)
        · exact Or.inr h

theorem alSet_ne_nil {α β : Type} [DecidableEq α] (l : List (α × β)) (k : α) (v : β) :
    alSet l k v ≠ [] := by
  cases l with
  | nil => simp [alSet]
  | cons e l =>
    by_cases h : e.1 = k <;> simp [alSet, h]

theorem keys_alSet {α β : Type} [DecidableEq α] (l : List (α × β)) (k : α) (v : β) :
    (alSet l k v).map Prod.fst =
      if k ∈ l.map Prod.fst then l.map Prod.fst else l.map Prod.fst ++ [k] := by
  induction l with
  | nil => simp [alSet]
  | cons e l ih =>
    by_cases h : e.1 = k
    · simp [alSet, h]
    · have hke : ¬ k = e.1 := fun hc => h hc.symm
      simp only [alSet, if_neg h, List.map_cons, ih, List.mem_cons]
      by_cases hk : k ∈ l.map Prod.fst
      · rw [if_pos hk, if_pos (Or.inr hk)]
      · rw [if_neg hk, if_neg (by simp [hke, hk]), List.cons_append]

theorem keys_alSet_nodup {α β : Type} [DecidableEq α] (l : List (α × β)) (k : α) (v : β)
    (h : (l.map Prod.fst).Nodup) : ((alSet l k v).map Prod.fst).Nodup := by
  rw [keys_alSet]
  by_cases hk : k ∈ l.map Prod.fst
  · simpa [hk] using h
  · simp only [hk, if_false]
    refine List.Nodup.append h (List.nodup_singleton k) ?_
    intro a ha hak
    rw [List.mem_singleton] at hak
    exact hk (hak ▸ ha)

theorem keys_alDel_nodup {α β : Type} [DecidableEq α] (l : List (α × β)) (k : α)
    (h : (l.map Prod.fst).Nodup) : ((alDel l k).map Prod.fst).Nodup :=
  ((alDel_sublist l k).map Prod.fst).nodup h

theorem alGet_mem {α β : Type} [DecidableEq α] {l : List (α × β)} {k : α} {v : β}
    (h : alGet l k = some v) : (k, v) ∈ l := by
  induction l with
  | nil => simp [alGet] at h
  | cons e l ih =>
    by_cases he : e.1 = k
    · simp only [alGet, if_pos he] at h
      cases h
      have he2 : (k, e.2) = e := by rw [← he]
      rw [he2]
      exact List.mem_cons_self _ _
    · simp only [alGet, if_neg he] at h
      exact List.mem_cons_of_mem _ (ih h)

theorem alGet_of_mem {α β : Type} [DecidableEq α] {l : List (α × β)} {k : α} {v : β}
    (hnd : (l.map Prod.fst).Nodup) (h : (k, v) ∈ l) : alGet l k = some v := by
  induction l with
  | nil => simp at h
  | cons e l ih =>
    rcases List.mem_cons.mp h with h | h
    · subst h
      simp [alGet]
    · have hk : k ∈ l.map Prod.fst := List.mem_map.mpr ⟨(k, v), h, rfl⟩
      have he : e.1 ≠ k := by
        intro hc
        exact (List.nodup_cons.mp hnd).1 (hc ▸ hk)
      simp only [alGet, if_neg he]
      exact ih (List.nodup_cons.mp hnd).2 h

theorem alGet_eq_none_iff {α β : Type} [DecidableEq α] (l : List (α × β)) (k : α) :
    alGet l k = none ↔ k ∉ l.map Prod.fst := by
  induction l with
  | nil => simp [alGet]
  | cons e l ih =>
    by_cases he : e.1 = k
    · simp [alGet, he]
    · have h2 : ¬ k = e.1 := fun hc => he hc.symm
      simp [alGet, he, ih, h2]

theorem eq_nil_of_alGet_none {α β : Type} [DecidableEq α] (l : List (α × β))
    (h : ∀ k, alGet l k = none) : l = [] := by
  cases l with
  | nil => rfl
  | cons e l =>
    have := h e.1
    simp [alGet] at this

/-! ## Trimming lemmas -/

theorem dropWhile_dropWhile_same {α : Type} (p : α → Bool) (l : List α) :
    (l.dropWhile p).dropWhile p = l.dropWhile p := by
  induction l with
  | nil => rfl
  | cons a l ih =>
    by_cases h : p a
    · simp [List.dropWhile_cons, h, ih]
    · simp [List.dropWhile_cons, h]

theorem head_dropWhile_not {α : Type} (p : α → Bool) (l : List α) {a : α}
    (h : (l.dropWhile p).head? = some a) : p a = false := by
  induction l with
  | nil => simp [List.dropWhile] at h
  | cons b l ih =>
    by_cases hb : p b
    · rw [List.dropWhile_cons, if_pos hb] at h
      exact ih h
    · rw [List.dropWhile_cons, if_neg hb] at h
      simp only [List.head?_cons, Option.some.injEq] at h
      subst h
      exact Bool.eq_false_iff.mpr hb

theorem dropWhile_eq_self_of_head {α : Type} (p : α → Bool) (l : List α)
    (h : ∀ a, l.head? = some a → p a = false) : l.dropWhile p = l := by
  cases l with
  | nil => rfl
  | cons a l =>
    rw [List.dropWhile_cons, if_neg]
    simp [h a rfl]

theorem jsTrimList_idem (l : List Char) : jsTrimList (jsTrimList l) = jsTrimList l := by
  unfold jsTrimList
  have hstep1 :
      (((l.dropWhile Char.isWhitespace).reverse.dropWhile Char.isWhitespace).reverse).dropWhile
        Char.isWhitespace =
      ((l.dropWhile Char.isWhitespace).reverse.dropWhile Char.isWhitespace).reverse := by
    apply dropWhile_eq_self_of_head
    intro a ha
    have hsuf :
        ((l.dropWhile Char.isWhitespace).reverse.dropWhile Char.isWhitespace) <:+
          (l.dropWhile Char.isWhitespace).reverse :=
      List.dropWhile_suffix _
    have hpre :
        ((l.dropWhile Char.isWhitespace).reverse.dropWhile Char.isWhitespace).reverse <+:
          l.dropWhile Char.isWhitespace :=
      List.reverse_suffix.mp (by rw [List.reverse_reverse]; exact hsuf)
    obtain ⟨t, ht⟩ := hpre
    have hhead : (l.dropWhile Char.isWhitespace).head? = some a := by
      rw [← ht, List.head?_append, ha]
      rfl
    exact head_dropWhile_not Char.isWhitespace l hhead
  rw [hstep1, List.reverse_reverse, dropWhile_dropWhile_same]

theorem jsTrim_idem (s : String) : jsTrim (jsTrim s) = jsTrim s := by
  show String.mk (jsTrimList (jsTrimList s.data)) = String.mk (jsTrimList s.data)
  rw [jsTrimList_idem]

/-! ## Characterizations of the validators -/

theorem normalizeReference_ok {r : String} (h1 : jsTrim r = r) (h2 : r ≠ "") :
    Cart.normalizeReference r = .ok r := by
  unfold Cart.normalizeReference
  rw [h1, if_neg h2]

theorem normalizeReference_ok_iff {r k : String} :
    Cart.normalizeReference r = .ok k ↔ (jsTrim r ≠ "" ∧ k = jsTrim r) := by
  unfold Cart.normalizeReference
  by_cases h : jsTrim r = "" <;> simp [h, eq_comm]

theorem normalizePromotionCode_ok_iff {r k : String} :
    Cart.normalizePromotionCode r = .ok k ↔ (jsTrim r ≠ "" ∧ k = jsTrim r) := by
  unfold Cart.normalizePromotionCode
  by_cases h : jsTrim r = "" <;> simp [h, eq_comm]

theorem assertPrice_ok {p : ℚ} (h : 0 < p) : Cart.assertPrice p = .ok () := by
  unfold Cart.assertPrice
  rw [if_neg (not_le.mpr h)]

theorem assertQuantity_ok {q : ℤ} (h : 0 < q) : Cart.assertQuantity q = .ok () := by
  unfold Cart.assertQuantity
  rw [if_neg (not_le.mpr h)]

theorem assertThreshold_ok {t : ℤ} (h : 2 ≤ t) : Cart.assertThreshold t = .ok () := by
  unfold Cart.assertThreshold
  rw [if_neg (not_lt.mpr h)]

/-! ## Sorting lemmas -/

instance : IsTotal ℚ (fun a b => b ≤ a) := ⟨fun a b => (le_total b a).symm.symm.imp id id⟩

instance : IsTrans ℚ (fun a b => b ≤ a) := ⟨fun _ _ _ h1 h2 => le_trans h2 h1⟩

theorem sortPrices_perm (bucket : Bucket) (asc : Bool) :
    (Cart.sortPrices bucket asc).Perm (bucket.map Prod.fst) := by
  unfold Cart.sortPrices
  cases asc <;> simp [List.perm_insertionSort]

theorem sortPrices_asc_pairwise (bucket : Bucket) (hnd : (bucket.map Prod.fst).Nodup) :
    (Cart.sortPrices bucket true).Pairwise (· < ·) := by
  have hs : (Cart.sortPrices bucket true).Pairwise (· ≤ ·) := by
    unfold Cart.sortPrices
    simpa using List.sorted_insertionSort (· ≤ ·) (bucket.map Prod.fst)
  have hn : (Cart.sortPrices bucket true).Nodup :=
    ((sortPrices_perm bucket true).symm.nodup hnd)
  exact (hs.and hn).imp (fun h => lt_of_le_of_ne h.1 h.2)

theorem sortPrices_desc_pairwise (bucket : Bucket) (hnd : (bucket.map Prod.fst).Nodup) :
    (Cart.sortPrices bucket false).Pairwise (fun a b => b < a) := by
  have hs : (Cart.sortPrices bucket false).Pairwise (fun a b => b ≤ a) := by
    unfold Cart.sortPrices
    simpa using List.sorted_insertionSort (fun a b => b ≤ a) (bucket.map Prod.fst)
  have hn : (Cart.sortPrices bucket false).Nodup :=
    ((sortPrices_perm bucket false).symm.nodup hnd)
  exact (hs.and hn).imp (fun h => lt_of_le_of_ne h.1 (fun hc => h.2 hc.symm))

/-! ## Freebie-allocation lemmas -/

theorem alGet_getD_nonneg {bucket : Bucket} (hpos : ∀ pq ∈ bucket, 0 < pq.2) (p : ℚ) :
    0 ≤ (alGet bucket p).getD 0 := by
  cases h : alGet bucket p with
  | none => simp
  | some q => simpa using le_of_lt (hpos _ (alGet_mem h))

theorem sumUntil_nonneg {bucket : Bucket} (hpos : ∀ pq ∈ bucket, 0 < pq.2)
    (ps : List ℚ) (P : ℚ) : 0 ≤ Cart.sumUntil bucket ps P := by
  induction ps with
  | nil => simp [Cart.sumUntil]
  | cons p rest ih =>
    by_cases h : p = P
    · simp [Cart.sumUntil, h]
    · simp only [Cart.sumUntil, if_neg h]
      exact add_nonneg (alGet_getD_nonneg hpos p) ih

theorem sumBelow_nonneg {bucket : Bucket} (hpos : ∀ pq ∈ bucket, 0 < pq.2) (P : ℚ) :
    0 ≤ Cart.sumBelow bucket P := by
  apply List.sum_nonneg
  intro x hx
  obtain ⟨pq, hpq, rfl⟩ := List.mem_map.mp hx
  exact le_of_lt (hpos _ (List.mem_of_mem_filter hpq))

theorem sumQuantities_nonneg {bucket : Bucket} (hpos : ∀ pq ∈ bucket, 0 < pq.2) :
    0 ≤ Cart.sumQuantities bucket := by
  apply List.sum_nonneg
  intro x hx
  obtain ⟨pq, hpq, rfl⟩ := List.mem_map.mp hx
  exact le_of_lt (hpos _ hpq)

theorem allocLoop_get (bucket : Bucket) (hpos : ∀ pq ∈ bucket, 0 < pq.2) :
    ∀ ps : List ℚ, ps.Pairwise (· < ·) → (∀ p ∈ ps, p ∈ bucket.map Prod.fst) →
      ∀ P ∈ ps, ∀ q : ℤ, alGet bucket P = some q → ∀ F : ℤ,
      (alGet (Cart.allocLoop bucket ps F) P).getD 0 =
        min q (max 0 (F - Cart.sumUntil bucket ps P)) := by
  intro ps
  induction ps with
  | nil =>
    intro _ _ P hP
    simp at hP
  | cons p rest ih =>
    intro hpair hkeys P hP q hq F
    have hq0 : 0 < q := hpos _ (alGet_mem hq)
    obtain ⟨qp, hqp⟩ : ∃ qp, alGet bucket p = some qp := by
      cases hv : alGet bucket p with
      | none =>
        exact absurd (hkeys p (List.mem_cons_self _ _)) ((alGet_eq_none_iff _ _).mp hv)
      | some qp => exact ⟨qp, rfl⟩
    have hqp0 : 0 < qp := hpos _ (alGet_mem hqp)
    have hsU : 0 ≤ Cart.sumUntil bucket rest P := sumUntil_nonneg hpos rest P
    by_cases hF : F ≤ 0
    · have h1 : Cart.allocLoop bucket (p :: rest) F = [] := by
        simp [Cart.allocLoop, hF]
      have h2 : 0 ≤ Cart.sumUntil bucket (p :: rest) P :=
        sumUntil_nonneg hpos (p :: rest) P
      rw [h1]
      simp only [alGet, Option.getD_none]
      omega
    · have h1 : Cart.allocLoop bucket (p :: rest) F =
          (p, min qp F) :: Cart.allocLoop bucket rest (F - min qp F) := by
        simp only [Cart.allocLoop, if_neg hF, hqp, Option.getD_some]
        rw [if_neg (by omega)]
      rw [h1]
      rcases List.mem_cons.mp hP with hPp | hPrest
      · subst hPp
        rw [hq] at hqp
        cases hqp
        have h2 : Cart.sumUntil bucket (P :: rest) P = 0 := by simp [Cart.sumUntil]
        simp [alGet, h2]
        omega
      · have hpP : p < P := (List.pairwise_cons.mp hpair).1 P hPrest
        have hne : ¬ p = P := ne_of_lt hpP
        have h2 : Cart.sumUntil bucket (p :: rest) P =
            qp + Cart.sumUntil bucket rest P := by
          simp [Cart.sumUntil, hne, hqp]
        have h3 := ih (List.pairwise_cons.mp hpair).2
          (fun x hx => hkeys x (List.mem_cons_of_mem _ hx)) P hPrest q hq (F - min qp F)
        simp only [alGet, if_neg hne, h3, h2]
        omega

theorem sumUntil_filter (bucket : Bucket) :
    ∀ ps : List ℚ, ps.Pairwise (· < ·) → ∀ P ∈ ps,
      Cart.sumUntil bucket ps P =
        ((ps.filter (fun x => decide (x < P))).map (fun p => (alGet bucket p).getD 0)).sum := by
  intro ps
  induction ps with
  | nil =>
    intro _ P hP
    simp at hP
  | cons p rest ih =>
    intro hpair P hP
    rcases List.mem_cons.mp hP with hPp | hPrest
    · subst hPp
      have hrest : rest.filter (fun x => decide (x < P)) = [] := by
        rw [List.filter_eq_nil_iff]
        intro x hx
        simpa using not_lt_of_gt ((List.pairwise_cons.mp hpair).1 x hx)
      simp [Cart.sumUntil, List.filter_cons, hrest]
    · have hpP : p < P := (List.pairwise_cons.mp hpair).1 P hPrest
      have hne : ¬ p = P := ne_of_lt hpP
      rw [show Cart.sumUntil bucket (p :: rest) P =
        (alGet bucket p).getD 0 + Cart.sumUntil bucket rest P by simp [Cart.sumUntil, hne]]
      rw [ih (List.pairwise_cons.mp hpair).2 P hPrest]
      simp [List.filter_cons, hpP]

theorem sum_getD_filter_keys (P : ℚ) :
    ∀ bucket : Bucket, (bucket.map Prod.fst).Nodup →
      (((bucket.map Prod.fst).filter (fun x => decide (x < P))).map
        (fun p => (alGet bucket p).getD 0)).sum = Cart.sumBelow bucket P := by
  intro bucket
  induction bucket with
  | nil => simp [Cart.sumBelow]
  | cons e rest ih =>
    intro hnd
    have hnotin : e.1 ∉ rest.map Prod.fst := (List.nodup_cons.mp hnd).1
    have hcongr :
        ((rest.map Prod.fst).filter (fun x => decide (x < P))).map
            (fun p => (alGet (e :: rest) p).getD 0) =
          ((rest.map Prod.fst).filter (fun x => decide (x < P))).map
            (fun p => (alGet rest p).getD 0) := by
      apply List.map_congr_left
      intro x hx
      have hxr : x ∈ rest.map Prod.fst := List.mem_of_mem_filter hx
      have hxe : ¬ e.1 = x := fun hc => hnotin (hc ▸ hxr)
      simp [alGet, hxe]
    have hself : (alGet (e :: rest) e.1).getD 0 = e.2 := by simp [alGet]
    by_cases hP : e.1 < P
    · rw [show Cart.sumBelow (e :: rest) P = e.2 + Cart.sumBelow rest P by
        simp [Cart.sumBelow, List.filter_cons, hP]]
      simp only [List.map_cons, List.filter_cons, decide_eq_true_eq, hP, if_pos trivial]
      rw [List.sum_cons, hself, hcongr, ih (List.nodup_cons.mp hnd).2]
    · rw [show Cart.sumBelow (e :: rest) P = Cart.sumBelow rest P by
        simp [Cart.sumBelow, List.filter_cons, hP]]
      simp only [List.map_cons, List.filter_cons, decide_eq_true_eq, hP, if_false]
      rw [hcongr, ih (List.nodup_cons.mp hnd).2]

theorem sumUntil_eq_sumBelow (bucket : Bucket) (hnd : (bucket.map Prod.fst).Nodup)
    (ps : List ℚ) (hperm : ps.Perm (bucket.map Prod.fst)) (hpair : ps.Pairwise (· < ·))
    (P : ℚ) (hP : P ∈ ps) : Cart.sumUntil bucket ps P = Cart.sumBelow bucket P := by
  rw [sumUntil_filter bucket ps hpair P hP]
  rw [List.Perm.sum_eq ((hperm.filter _).map _)]
  exact sum_getD_filter_keys P bucket hnd

theorem findActiveBuyNAux_mem {reference : String} :
    ∀ {l : List (String × PromotionRule)} {promo : BuyNGetOnePromotion},
      Cart.findActiveBuyNAux reference l = some promo →
      (∃ e ∈ l, e.2 = PromotionRule.buyNGetOne promo) ∧
        promo.activated = true ∧ promo.reference = reference := by
  intro l
  induction l with
  | nil =>
    intro promo h
    simp [Cart.findActiveBuyNAux] at h
  | cons e rest ih =>
    intro promo h
    match he : e.2 with
    | .percent pr =>
      simp only [Cart.findActiveBuyNAux, he] at h
      obtain ⟨⟨e', he', hrule⟩, hact, href⟩ := ih h
      exact ⟨⟨e', List.mem_cons_of_mem _ he', hrule⟩, hact, href⟩
    | .buyNGetOne pr =>
      simp only [Cart.findActiveBuyNAux, he] at h
      by_cases hact : pr.activated = false
      · rw [if_pos hact] at h
        obtain ⟨⟨e', he', hrule⟩, hact', href⟩ := ih h
        exact ⟨⟨e', List.mem_cons_of_mem _ he', hrule⟩, hact', href⟩
      · rw [if_neg hact] at h
        by_cases href : pr.reference ≠ reference
        · rw [if_pos href] at h
          obtain ⟨⟨e', he', hrule⟩, hact', href'⟩ := ih h
          exact ⟨⟨e', List.mem_cons_of_mem _ he', hrule⟩, hact', href'⟩
        · rw [if_neg href] at h
          cases h
          refine ⟨⟨e, List.mem_cons_self _ _, he⟩, ?_, not_not.mp href⟩
          simpa using hact

theorem findActiveBuyN_threshold {c : Cart} (hwf : Cart.Wf c) {reference : String}
    {promo : BuyNGetOnePromotion}
    (h : Cart.findActiveBuyNPromotion c reference = some promo) : 2 ≤ promo.threshold := by
  obtain ⟨⟨e, he, hrule⟩, -, -⟩ := findActiveBuyNAux_mem h
  have := hwf.2.2.2 e he
  rw [hrule] at this
  exact this

theorem freebie_get (c : Cart) (reference : String) (bucket : Bucket)
    (hwfb : Cart.BucketWf bucket) {promo : BuyNGetOnePromotion}
    (hfind : Cart.findActiveBuyNPromotion c reference = some promo)
    (hthr : 2 ≤ promo.threshold) {P : ℚ} {q : ℤ} (hq : alGet bucket P = some q) :
    (alGet (Cart.buildFreebieAllocation c reference bucket) P).getD 0 =
      min q (max 0 (Int.fdiv (Cart.sumQuantities bucket) (promo.threshold + 1) -
        Cart.sumBelow bucket P)) := by
  have hpos : ∀ pq ∈ bucket, 0 < pq.2 := fun pq hpq => (hwfb.2 pq hpq).2
  have hq0 : 0 < q := hpos _ (alGet_mem hq)
  have hsB : 0 ≤ Cart.sumBelow bucket P := sumBelow_nonneg hpos P
  have hF0 : 0 ≤ Int.fdiv (Cart.sumQuantities bucket) (promo.threshold + 1) :=
    Int.fdiv_nonneg (sumQuantities_nonneg hpos) (by omega)
  unfold Cart.buildFreebieAllocation
  rw [hfind]
  simp only
  rw [if_neg (show ¬ promo.threshold + 1 ≤ 0 by omega)]
  by_cases hf : Int.fdiv (Cart.sumQuantities bucket) (promo.threshold + 1) ≤ 0
  · rw [if_pos hf]
    simp only [alGet, Option.getD_none]
    omega
  · rw [if_neg hf]
    have hPmem : P ∈ Cart.sortPrices bucket true := by
      rw [List.Perm.mem_iff (sortPrices_perm bucket true)]
      exact List.mem_map.mpr ⟨(P, q), alGet_mem hq, rfl⟩
    rw [allocLoop_get bucket hpos (Cart.sortPrices bucket true)
      (sortPrices_asc_pairwise bucket hwfb.1)
      (fun p hp => (List.Perm.mem_iff (sortPrices_perm bucket true)).mp hp)
      P hPmem q hq _]
    rw [sumUntil_eq_sumBelow bucket hwfb.1 _ (sortPrices_perm bucket true)
      (sortPrices_asc_pairwise bucket hwfb.1) P hPmem]

theorem applicablePercentB_of_conds {reference : String} {price : ℚ} {pr : PercentPromotion}
    (h1 : pr.reference = reference) (h2 : pr.activated = true)
    (h3 : ∀ mp, pr.minPrice = some mp → ¬ price < mp) :
    Cart.applicablePercentB reference price (.percent pr) = true := by
  show (decide (pr.reference = reference) && pr.activated &&
    (match pr.minPrice with
     | some minPrice => decide (minPrice ≤ price)
     | none => true)) = true
  rw [h1, h2]
  cases hm : pr.minPrice with
  | none => simp
  | some mp => simp [not_lt.mp (h3 mp hm)]

theorem findApplicablePercentAux_of_filter_nil {reference : String} {price : ℚ} :
    ∀ l : List (String × PromotionRule),
      (l.map Prod.snd).filter (Cart.applicablePercentB reference price) = [] →
      Cart.findApplicablePercentAux reference price l = none := by
  intro l
  induction l with
  | nil => intro _; rfl
  | cons e rest ih =>
    intro h
    rw [List.map_cons, List.filter_cons] at h
    match he : e.2 with
    | .buyNGetOne pr =>
      rw [he] at h
      simp only [Cart.applicablePercentB] at h
      simp only [Cart.findApplicablePercentAux, he]
      exact ih (by simpa using h)
    | .percent pr =>
      rw [he] at h
      simp only [Cart.findApplicablePercentAux, he]
      by_cases href : pr.reference ≠ reference
      · rw [if_pos href]
        apply ih
        by_cases hb : Cart.applicablePercentB reference price (.percent pr) = true
        · exact absurd hb (by simp [Cart.applicablePercentB, fun hc => href hc])
        · simpa [hb] using h
      · rw [if_neg href]
        by_cases hact : pr.activated = false
        · rw [if_pos hact]
          apply ih
          by_cases hb : Cart.applicablePercentB reference price (.percent pr) = true
          · exact absurd hb (by simp [Cart.applicablePercentB, hact])
          · simpa [hb] using h
        · rw [if_neg hact]
          have hact' : pr.activated = true := by simpa using hact
          cases hm : pr.minPrice with
          | some mp =>
            show (if price < mp then Cart.findApplicablePercentAux reference price rest
              else some pr) = none
            by_cases hlt : price < mp
            · rw [if_pos hlt]
              apply ih
              by_cases hb : Cart.applicablePercentB reference price (.percent pr) = true
              · exact absurd hb
                  (by simp [Cart.applicablePercentB, hm, hact', not_le.mpr hlt])
              · simpa [hb] using h
            · exfalso
              have hb : Cart.applicablePercentB reference price (.percent pr) = true :=
                applicablePercentB_of_conds (not_not.mp href) hact'
                  (fun mp' hmp' => by rw [hm] at hmp'; cases hmp'; exact hlt)
              rw [if_pos hb] at h
              exact List.cons_ne_nil _ _ h
          | none =>
            exfalso
            have hb : Cart.applicablePercentB reference price (.percent pr) = true :=
              applicablePercentB_of_conds (not_not.mp href) hact'
                (fun mp' hmp' => by rw [hm] at hmp'; cases hmp')
            rw [if_pos hb] at h
            exact List.cons_ne_nil _ _ h

theorem findApplicablePercentAux_of_filter_one {reference : String} {price : ℚ}
    {pr : PercentPromotion} :
    ∀ l : List (String × PromotionRule),
      (l.map Prod.snd).filter (Cart.applicablePercentB reference price) =
        [PromotionRule.percent pr] →
      Cart.findApplicablePercentAux reference price l = some pr := by
  intro l
  induction l with
  | nil => intro h; simp at h
  | cons e rest ih =>
    intro h
    rw [List.map_cons, List.filter_cons] at h
    by_cases hb : Cart.applicablePercentB reference price e.2 = true
    · rw [if_pos hb] at h
      have h1 : e.2 = PromotionRule.percent pr := (List.cons_eq_cons.mp h).1
      have h2 : (rest.map Prod.snd).filter (Cart.applicablePercentB reference price) = [] :=
        (List.cons_eq_cons.mp h).2
      rw [h1] at hb
      unfold Cart.applicablePercentB at hb
      simp only [Bool.and_eq_true, decide_eq_true_eq] at hb
      simp only [Cart.findApplicablePercentAux, h1]
      rw [if_neg (not_not.mpr hb.1.1), if_neg (by simp [hb.1.2])]
      cases hm : pr.minPrice with
      | none => rfl
      | some mp =>
        rw [hm] at hb
        simp only [decide_eq_true_eq] at hb
        show (if price < mp then Cart.findApplicablePercentAux reference price rest
          else some pr) = some pr
        rw [if_neg (not_lt.mpr hb.2)]
    · rw [if_neg hb] at h
      match he : e.2 with
      | .buyNGetOne pr' =>
        simp only [Cart.findApplicablePercentAux, he]
        exact ih h
      | .percent pr' =>
        rw [he] at hb
        simp only [Cart.findApplicablePercentAux, he]
        by_cases href : pr'.reference ≠ reference
        · rw [if_pos href]; exact ih h
        · rw [if_neg href]
          by_cases hact : pr'.activated = false
          · rw [if_pos hact]; exact ih h
          · rw [if_neg hact]
            have hact' : pr'.activated = true := by simpa using hact
            cases hm : pr'.minPrice with
            | some mp =>
              show (if price < mp then Cart.findApplicablePercentAux reference price rest
                else some pr') = some pr
              by_cases hlt : price < mp
              · rw [if_pos hlt]; exact ih h
              · exact absurd (applicablePercentB_of_conds (not_not.mp href) hact'
                  (fun mp' hmp' => by rw [hm] at hmp'; cases hmp'; exact hlt)) hb
            | none =>
              exact absurd (applicablePercentB_of_conds (not_not.mp href) hact'
                (fun mp' hmp' => by rw [hm] at hmp'; cases hmp')) hb

/-! ## Success-path characterizations -/

theorem except_bind_ok {ε α β : Type} (a : α) (f : α → Except ε β) :
    (Except.ok a : Except ε α) >>= f = f a := rfl

theorem except_bind_error {ε α β : Type} (e : ε) (f : α → Except ε β) :
    (Except.error e : Except ε α) >>= f = Except.error e := rfl

theorem getExistingBucket_ok {c : Cart} {R : String} {bucket : Bucket}
    (hRt : jsTrim R = R) (hRne : R ≠ "") (hb : alGet c.items R = some bucket) :
    Cart.getExistingBucket c R = .ok (R, bucket, c) := by
  unfold Cart.getExistingBucket Cart.resolveBucket
  rw [normalizeReference_ok hRt hRne, except_bind_ok, hb]

theorem getQuantityForPrice_ok {bucket : Bucket} {P : ℚ} {q : ℤ}
    (hP : 0 < P) (hq : alGet bucket P = some q) :
    Cart.getQuantityForPrice bucket P = .ok q := by
  unfold Cart.getQuantityForPrice
  rw [assertPrice_ok hP, except_bind_ok, hq]

theorem getAmount_char {c : Cart} {R : String} {bucket : Bucket}
    (hRt : jsTrim R = R) (hRne : R ≠ "") (hb : alGet c.items R = some bucket)
    {P : ℚ} {q : ℤ} (hP : 0 < P) (hq : alGet bucket P = some q) :
    Cart.getAmount c R P = .ok (Cart.getDiscountedPrice c R P *
      ((max 0 (q - (alGet (Cart.buildFreebieAllocation c R bucket) P).getD 0) : ℤ) : ℚ), c) := by
  unfold Cart.getAmount
  simp only [getExistingBucket_ok hRt hRne hb, except_bind_ok,
    getQuantityForPrice_ok hP hq]

theorem getDiscountedPrice_of_filter_one {c : Cart} {R : String} {P : ℚ}
    {pr : PercentPromotion}
    (h : (c.promotions.map Prod.snd).filter (Cart.applicablePercentB R P) =
      [PromotionRule.percent pr]) :
    Cart.getDiscountedPrice c R P = P * (1 - (pr.percent : ℚ) / 100) := by
  unfold Cart.getDiscountedPrice Cart.findApplicablePercentPromotion
  rw [findApplicablePercentAux_of_filter_one c.promotions h]

theorem getDiscountedPrice_of_filter_nil {c : Cart} {R : String} {P : ℚ}
    (h : (c.promotions.map Prod.snd).filter (Cart.applicablePercentB R P) = []) :
    Cart.getDiscountedPrice c R P = P := by
  unfold Cart.getDiscountedPrice Cart.findApplicablePercentPromotion
  rw [findApplicablePercentAux_of_filter_nil c.promotions h]

/-- C3: for every well-formed cart state, reference `R` stored with a price
entry at `P`, and active buy-N-get-one promotion of threshold `T` found on
`R`, the free units granted at `P` follow the cheapest-first closed form
`min q (max 0 (floor(total/(T+1)) - sumBelow))` (allocating free units to
the cheapest entries first, each entry consumed before moving on), and
`getAmount R P` equals `max 0 (q - free) * effectivePrice`, where
`effectivePrice` is `P * (1 - percent/100)` when a unique applicable active
percent promotion on `R` exists (no `minPrice`, or `minPrice ≤ P`), and `P`
when none exists. -/
theorem claim_C3 (c : Cart) (R : String) (P : ℚ) (bucket : Bucket) (q : ℤ)
    (promo : BuyNGetOnePromotion)
    (hwf : Cart.Wf c)
    (hb : alGet c.items R = some bucket)
    (hq : alGet bucket P = some q)
    (hpromo : Cart.findActiveBuyNPromotion c R = some promo) :
    (∀ pr : PercentPromotion,
       (c.promotions.map Prod.snd).filter (Cart.applicablePercentB R P) =
         [PromotionRule.percent pr] →
       Cart.getAmount c R P =
         .ok (((max 0 (q - min q (max 0 (Int.fdiv (Cart.sumQuantities bucket)
             (promo.threshold + 1) - Cart.sumBelow bucket P))) : ℤ) : ℚ) *
           (P * (1 - (pr.percent : ℚ) / 100)), c)) ∧
    ((c.promotions.map Prod.snd).filter (Cart.applicablePercentB R P) = [] →
       Cart.getAmount c R P =
         .ok (((max 0 (q - min q (max 0 (Int.fdiv (Cart.sumQuantities bucket)
             (promo.threshold + 1) - Cart.sumBelow bucket P))) : ℤ) : ℚ) * P, c)) := by
  obtain ⟨hRt, hRne, hbne, hwfb⟩ := hwf.2.1 _ (alGet_mem hb)
  have hP : 0 < P := (hwfb.2 _ (alGet_mem hq)).1
  have hthr := findActiveBuyN_threshold hwf hpromo
  have hfree := freebie_get c R bucket hwfb hpromo hthr hq
  have hchar := getAmount_char hRt hRne hb hP hq
  constructor
  · intro pr hfilter
    rw [hchar, hfree, getDiscountedPrice_of_filter_one hfilter, mul_comm]
  · intro hfilter
    rw [hchar, hfree, getDiscountedPrice_of_filter_nil hfilter, mul_comm]

/-- Witness for C3: a cart holding `C` at price 50, quantity 3, with an
active buy-2-get-1 promotion and an active 10%-off promotion on `C`:
`getAmount('C',50) = 2*50*0.9 = 90`. -/
theorem claim_C3_witness :
    Cart.getAmount
      ⟨[("C", [((50 : ℚ), (3 : ℤ))])],
       [("B2G1", .buyNGetOne ⟨"C", 2, true⟩), ("P10", .percent ⟨"C", 10, none, true⟩)]⟩
      "C" 50 =
    .ok (90, ⟨[("C", [((50 : ℚ), (3 : ℤ))])],
       [("B2G1", .buyNGetOne ⟨"C", 2, true⟩), ("P10", .percent ⟨"C", 10, none, true⟩)]⟩) := by
  have h := (claim_C3
    ⟨[("C", [((50 : ℚ), (3 : ℤ))])],
     [("B2G1", .buyNGetOne ⟨"C", 2, true⟩), ("P10", .percent ⟨"C", 10, none, true⟩)]⟩
    "C" 50 [((50 : ℚ), (3 : ℤ))] 3 ⟨"C", 2, true⟩
    (by decide) (by decide) (by decide) (by decide)).1
    ⟨"C", 10, none, true⟩ (by decide)
  rw [h,
    show Int.fdiv (Cart.sumQuantities [((50 : ℚ), (3 : ℤ))]) (2 + 1) = 1 from by decide,
    show Cart.sumBelow [((50 : ℚ), (3 : ℤ))] 50 = 0 from by decide]
  norm_num

/-- C4: `getTotalAmount` is the sum, over every stored reference and every
price of its bucket, of the value `getAmount` returns for that pair; it is 0
on the empty cart and, being a total function, never fails; each of those
`getAmount` calls succeeds and does not change the cart. -/
theorem claim_C4 (c : Cart) (hwf : Cart.Wf c) :
    Cart.getTotalAmount Cart.empty = 0 ∧
    Cart.getTotalAmount c =
      (c.items.map (fun rb => (rb.2.map (fun pq =>
        ((Cart.getAmount c rb.1 pq.1).toOption.map Prod.fst).getD 0)).sum)).sum ∧
    ∀ rb ∈ c.items, ∀ pq ∈ rb.2, ∃ a : ℚ, Cart.getAmount c rb.1 pq.1 = .ok (a, c) := by
  have hchar : ∀ rb ∈ c.items, ∀ pq ∈ rb.2,
      Cart.getAmount c rb.1 pq.1 = .ok (Cart.getDiscountedPrice c rb.1 pq.1 *
        ((max 0 (pq.2 - (alGet (Cart.buildFreebieAllocation c rb.1 rb.2) pq.1).getD 0) : ℤ) : ℚ),
        c) := by
    intro rb hrb pq hpq
    obtain ⟨hRt, hRne, hbne, hwfb⟩ := hwf.2.1 _ hrb
    exact getAmount_char hRt hRne (alGet_of_mem hwf.1 hrb)
      ((hwfb.2 _ hpq).1) (alGet_of_mem hwfb.1 hpq)
  refine ⟨rfl, ?_, fun rb hrb pq hpq => ⟨_, hchar rb hrb pq hpq⟩⟩
  unfold Cart.getTotalAmount
  apply congrArg List.sum
  apply List.map_congr_left
  intro rb hrb
  unfold Cart.calculateBucketAmount
  apply congrArg List.sum
  apply List.map_congr_left
  intro pq hpq
  rw [hchar rb hrb pq hpq]
  rfl

/-- Witness for C4: a one-item cart evaluated through the theorem. -/
theorem claim_C4_witness :
    Cart.getTotalAmount (⟨[("A", [((10 : ℚ), (2 : ℤ))])], []⟩ : Cart) =
      (([("A", [((10 : ℚ), (2 : ℤ))])] : List (String × Bucket)).map (fun rb => (rb.2.map (fun pq =>
        ((Cart.getAmount (⟨[("A", [((10 : ℚ), (2 : ℤ))])], []⟩ : Cart) rb.1 pq.1).toOption.map
          Prod.fst).getD 0)).sum)).sum :=
  (claim_C4 ⟨[("A", [((10 : ℚ), (2 : ℤ))])], []⟩ (by decide)).2.1

theorem resolveBucket_false_state {c : Cart} {r k : String} {b : Bucket} {c' : Cart}
    (h : Cart.resolveBucket c r false = .ok (k, b, c')) : c' = c := by
  unfold Cart.resolveBucket at h
  cases hn : Cart.normalizeReference r with
  | error e =>
    rw [hn, except_bind_error] at h
    exact absurd h (by simp)
  | ok refKey =>
    rw [hn, except_bind_ok] at h
    cases hg : alGet c.items refKey with
    | some bucket =>
      rw [hg] at h
      simp only [Except.ok.injEq, Prod.mk.injEq] at h
      exact h.2.2.symm
    | none =>
      rw [hg] at h
      simp at h

/-- C10: the queries that look a reference up return the cart object
unchanged, and repeating the same call on the returned state gives the same
answer (`getTotalAmount` and `getReferences` are pure functions of the cart
by their very type in this embedding: they read the maps and return values). -/
theorem claim_C10 (c : Cart) (r : String) (p : ℚ) (po : Option ℚ) :
    (∀ v c', Cart.getUnitPrices c r = .ok (v, c') →
        c' = c ∧ Cart.getUnitPrices c' r = .ok (v, c')) ∧
    (∀ v c', Cart.getQuantity c r po = .ok (v, c') →
        c' = c ∧ Cart.getQuantity c' r po = .ok (v, c')) ∧
    (∀ v c', Cart.getAmount c r p = .ok (v, c') →
        c' = c ∧ Cart.getAmount c' r p = .ok (v, c')) := by
  have hup : ∀ v c', Cart.getUnitPrices c r = .ok (v, c') → c' = c := by
    intro v c' h
    unfold Cart.getUnitPrices at h
    cases hg : Cart.getExistingBucket c r with
    | error e =>
      rw [hg, except_bind_error] at h
      exact absurd h (by simp)
    | ok t =>
      obtain ⟨k, b, c₁⟩ := t
      rw [hg, except_bind_ok] at h
      simp only [Except.ok.injEq, Prod.mk.injEq] at h
      unfold Cart.getExistingBucket at hg
      rw [← h.2]
      exact resolveBucket_false_state hg
  have hq : ∀ v c', Cart.getQuantity c r po = .ok (v, c') → c' = c := by
    intro v c' h
    unfold Cart.getQuantity at h
    cases hg : Cart.getExistingBucket c r with
    | error e =>
      rw [hg, except_bind_error] at h
      exact absurd h (by simp)
    | ok t =>
      obtain ⟨k, b, c₁⟩ := t
      rw [hg, except_bind_ok] at h
      dsimp only at h
      unfold Cart.getExistingBucket at hg
      cases po with
      | none =>
        simp only [Except.ok.injEq, Prod.mk.injEq] at h
        rw [← h.2]
        exact resolveBucket_false_state hg
      | some pp =>
        dsimp only at h
        cases hqp : Cart.getQuantityForPrice b pp with
        | error e =>
          rw [hqp, except_bind_error] at h
          exact absurd h (by simp)
        | ok qv =>
          rw [hqp, except_bind_ok] at h
          simp only [Except.ok.injEq, Prod.mk.injEq] at h
          rw [← h.2]
          exact resolveBucket_false_state hg
  have ha : ∀ v c', Cart.getAmount c r p = .ok (v, c') → c' = c := by
    intro v c' h
    unfold Cart.getAmount at h
    cases hg : Cart.getExistingBucket c r with
    | error e =>
      rw [hg, except_bind_error] at h
      exact absurd h (by simp)
    | ok t =>
      obtain ⟨k, b, c₁⟩ := t
      rw [hg, except_bind_ok] at h
      dsimp only at h
      unfold Cart.getExistingBucket at hg
      cases hqp : Cart.getQuantityForPrice b p with
      | error e =>
        rw [hqp, except_bind_error] at h
        exact absurd h (by simp)
      | ok qv =>
        rw [hqp, except_bind_ok] at h
        simp only [Except.ok.injEq, Prod.mk.injEq] at h
        rw [← h.2]
        exact resolveBucket_false_state hg
  refine ⟨fun v c' h => ?_, fun v c' h => ?_, fun v c' h => ?_⟩
  · have hc := hup v c' h
    subst hc
    exact ⟨rfl, h⟩
  · have hc := hq v c' h
    subst hc
    exact ⟨rfl, h⟩
  · have hc := ha v c' h
    subst hc
    exact ⟨rfl, h⟩

/-- Witness for C10: a concrete query through the theorem. -/
theorem claim_C10_witness :
    (⟨[("A", [((10 : ℚ), (2 : ℤ))])], []⟩ : Cart) = ⟨[("A", [((10 : ℚ), (2 : ℤ))])], []⟩ ∧
    Cart.getUnitPrices (⟨[("A", [((10 : ℚ), (2 : ℤ))])], []⟩ : Cart) "A" =
      .ok ([10], ⟨[("A", [((10 : ℚ), (2 : ℤ))])], []⟩) :=
  (claim_C10 ⟨[("A", [((10 : ℚ), (2 : ℤ))])], []⟩ "A" 10 none).1 [10]
    ⟨[("A", [((10 : ℚ), (2 : ℤ))])], []⟩ (by decide)

/-- C6: removing strictly more than the stored total fails with
`InsufficientQuantity`.  In this embedding a failing operation returns
`Except.error` and no successor state: the source throws before any
mutation, so the cart is untouched on failure by construction. -/
theorem claim_C6 (c : Cart) (R : String) (q : ℤ) (bucket : Bucket)
    (hwf : Cart.Wf c) (hb : alGet c.items R = some bucket)
    (hq : 0 < q) (hgt : Cart.sumQuantities bucket < q) :
    Cart.remove c R q = .error .insufficientQuantity := by
  obtain ⟨hRt, hRne, -, -⟩ := hwf.2.1 _ (alGet_mem hb)
  unfold Cart.remove
  rw [getExistingBucket_ok hRt hRne hb, except_bind_ok]
  dsimp only
  rw [assertQuantity_ok hq, except_bind_ok, if_pos hgt]

/-- Witness for C6: `add('A',10,2); add('A',12,1); remove('A',4)` fails. -/
theorem claim_C6_witness :
    Cart.remove (⟨[("A", [((10 : ℚ), (2 : ℤ)), ((12 : ℚ), (1 : ℤ))])], []⟩ : Cart) "A" 4 =
      .error .insufficientQuantity :=
  claim_C6 ⟨[("A", [((10 : ℚ), (2 : ℤ)), ((12 : ℚ), (1 : ℤ))])], []⟩ "A" 4
    [((10 : ℚ), (2 : ℤ)), ((12 : ℚ), (1 : ℤ))] (by decide) (by decide) (by decide) (by decide)

/-- Counterexample to C2 as stated: on an empty or whitespace-only code,
`activatePromotion` throws ("Promotion code must be a non-empty string")
instead of returning a boolean. -/
theorem claim_C2_counterexample :
    Cart.activatePromotion Cart.empty "" = .error .invalidPromotionCode ∧
    Cart.activatePromotion Cart.empty " " = .error .invalidPromotionCode := by
  constructor <;> rfl

/-- C2 (amended): for every code that is non-empty after trimming,
`activatePromotion` returns a boolean and never throws, and an unknown code
resolves to `false` with the cart unchanged; an empty or whitespace-only
code, however, throws `InvalidPromotionCode`. -/
theorem claim_C2_amended (c : Cart) (code : String) (h : jsTrim code ≠ "") :
    (∃ r, Cart.activatePromotion c code = .ok r) ∧
    (alGet c.promotions (jsTrim code) = none →
      Cart.activatePromotion c code = .ok (false, c)) := by
  have hnorm : Cart.normalizePromotionCode code = .ok (jsTrim code) := by
    unfold Cart.normalizePromotionCode
    rw [if_neg h]
  constructor
  · unfold Cart.activatePromotion
    rw [hnorm, except_bind_ok]
    cases hg : alGet c.promotions (jsTrim code) with
    | none => exact ⟨(false, c), rfl⟩
    | some promotion =>
      dsimp only
      by_cases ha : promotion.activated = true
      · rw [if_pos ha]
        exact ⟨(true, c), rfl⟩
      · rw [if_neg ha]
        by_cases hh : Cart.hasActivePromotionForReference c promotion.reference
            (some (jsTrim code)) = true
        · rw [if_pos hh]
          exact ⟨(false, c), rfl⟩
        · rw [if_neg hh]
          exact ⟨_, rfl⟩
  · intro hg
    unfold Cart.activatePromotion
    rw [hnorm, except_bind_ok, hg]

/-- Witness for C2 (amended): an unknown non-empty code on the empty cart. -/
theorem claim_C2_amended_witness :
    (∃ r, Cart.activatePromotion Cart.empty "X" = .ok r) ∧
    (alGet Cart.empty.promotions (jsTrim "X") = none →
      Cart.activatePromotion Cart.empty "X" = .ok (false, Cart.empty)) :=
  claim_C2_amended Cart.empty "X" (by decide)

/-- Counterexample to C9 as stated: with an empty reference and an invalid
price, `add` reports `InvalidPrice`, not `InvalidReference` — the source
validates price first (`assertPrice` is the first statement of `add`). -/
theorem claim_C9_counterexample :
    Cart.add Cart.empty "" 0 1 = .error .invalidPrice ∧
    Cart.add Cart.empty "" 0 1 ≠ .error .invalidReference := by
  constructor
  · rfl
  · intro h
    cases h

/-- C9 (amended): `add` validates price, then quantity, then reference: an
empty-after-trimming reference yields `InvalidReference` exactly when price
and quantity are themselves valid; an invalid price or quantity is reported
first. -/
theorem claim_C9_amended (c : Cart) (ref : String) (p : ℚ) (q : ℤ)
    (href : jsTrim ref = "") :
    (p ≤ 0 → Cart.add c ref p q = .error .invalidPrice) ∧
    (0 < p → q ≤ 0 → Cart.add c ref p q = .error .invalidQuantity) ∧
    (0 < p → 0 < q → Cart.add c ref p q = .error .invalidReference) := by
  refine ⟨?_, ?_, ?_⟩
  · intro hp
    unfold Cart.add Cart.assertPrice
    rw [if_pos hp]
    rfl
  · intro hp hq
    unfold Cart.add
    rw [assertPrice_ok hp, except_bind_ok]
    unfold Cart.assertQuantity
    rw [if_pos hq]
    rfl
  · intro hp hq
    unfold Cart.add
    rw [assertPrice_ok hp, except_bind_ok, assertQuantity_ok hq, except_bind_ok]
    unfold Cart.getOrCreateBucket Cart.resolveBucket Cart.normalizeReference
    rw [href]
    rfl

/-- Witness for C9 (amended): a whitespace-only reference with valid price
and quantity fails `InvalidReference`. -/
theorem claim_C9_amended_witness :
    Cart.add Cart.empty "   " 10 1 = .error .invalidReference :=
  (claim_C9_amended Cart.empty "   " 10 1 (by decide)).2.2 (by decide) (by decide)

/-- Counterexample to C8 as stated: positive infinity is *not* rejected by
the price guard — the source checks `Number.isNaN(price) || price <= 0` and
never checks finiteness. -/
theorem claim_C8_counterexample :
    Cart.assertPriceNum JsNumber.posInf = .ok () ∧
    Cart.assertPriceNum JsNumber.posInf ≠ .error .invalidPrice := by
  constructor
  · rfl
  · intro h
    cases h

/-- C8 (amended): the price guard fails with `InvalidPrice` exactly when the
price is NaN or `<= 0` under JavaScript comparison (so NaN, zero, negative
numbers and negative infinity are rejected, but positive infinity is
accepted: there is no finiteness check); accordingly `add` — which runs the
same guard first — fails `InvalidPrice` on every non-positive price. -/
theorem claim_C8_amended :
    (∀ x : JsNumber, Cart.assertPriceNum x = .error .invalidPrice ↔
      (x = JsNumber.nan ∨ JsNumber.jsLe x (JsNumber.fin 0) = true)) ∧
    (∀ (c : Cart) (r : String) (p : ℚ) (q : ℤ), p ≤ 0 →
      Cart.add c r p q = .error .invalidPrice) := by
  constructor
  · intro x
    unfold Cart.assertPriceNum
    by_cases h : x = JsNumber.nan ∨ JsNumber.jsLe x (JsNumber.fin 0) = true
    · simp [h]
    · simp only [if_neg h]
      push_neg at h
      simp [h.1, h.2]
  · intro c r p q hp
    unfold Cart.add Cart.assertPrice
    rw [if_pos hp]
    rfl

/-- Witness for C8 (amended): `add` with price 0 fails `InvalidPrice`. -/
theorem claim_C8_amended_witness :
    Cart.add Cart.empty "B" 0 2 = .error .invalidPrice :=
  claim_C8_amended.2 Cart.empty "B" 0 2 (by decide)

/-- C1 evaluated at the scenario of the repository's own test
("stacks buy-two-get-one and percent promotions on the same reference"):
after registering a 10% promotion and a buy-2-get-1 promotion on `C`,
adding 3 units at 50 and activating the percent code, activating the
buy-N-get-one code returns `false` (the claim and the test expect `true`),
and `getAmount('C',50)` is `135` (3 units at 10% off) instead of the
expected `90`: `hasActivePromotionForReference` does not filter by
promotion kind, so the second activation is rejected. -/
theorem claim_C1_code_bug :
    (do
      let c₁ ← Cart.registerPromotion Cart.empty "PROMO10" "C" 10 none
      let c₂ ← Cart.registerBuyNGetOnePromotion c₁ "B2G1" "C" 2
      let c₃ ← Cart.add c₂ "C" 50 3
      let (b₁, c₄) ← Cart.activatePromotion c₃ "PROMO10"
      let (b₂, c₅) ← Cart.activatePromotion c₄ "B2G1"
      let (amount, _) ← Cart.getAmount c₅ "C" 50
      (.ok (b₁, b₂, amount) : Except CartError (Bool × Bool × ℚ)))
    = .ok (true, false, 135) := by
  simp +decide [Cart.registerPromotion, Cart.registerBuyNGetOnePromotion, Cart.add,
    Cart.activatePromotion, Cart.getAmount, Cart.empty, Cart.normalizePromotionCode,
    Cart.normalizeReference, Cart.assertPercent, Cart.assertThreshold, Cart.assertPrice,
    Cart.assertQuantity, Cart.getOrCreateBucket, Cart.getExistingBucket, Cart.resolveBucket,
    jsTrim, alSet, alGet, alHas, Cart.hasActivePromotionForReference,
    Cart.getQuantityForPrice, Cart.buildFreebieAllocation, Cart.findActiveBuyNPromotion,
    Cart.findActiveBuyNAux, Cart.getDiscountedPrice, Cart.findApplicablePercentPromotion,
    Cart.findApplicablePercentAux, Cart.sumQuantities, Cart.sortPrices, Cart.allocLoop,
    PromotionRule.activated, PromotionRule.activate, PromotionRule.reference, Bind.bind,
    Except.bind, List.dropWhile, Char.isWhitespace]
  norm_num

/-! ## Removal lemmas -/

theorem sumUntil_congr {b1 b2 : Bucket} (ps : List ℚ) (P : ℚ)
    (h : ∀ x ∈ ps, alGet b1 x = alGet b2 x) :
    Cart.sumUntil b1 ps P = Cart.sumUntil b2 ps P := by
  induction ps with
  | nil => rfl
  | cons p rest ih =>
    by_cases hp : p = P
    · simp [Cart.sumUntil, hp]
    · simp only [Cart.sumUntil, if_neg hp]
      rw [h p (List.mem_cons_self _ _), ih (fun x hx => h x (List.mem_cons_of_mem _ hx))]

theorem sumUntil_nonneg_of_mem {bucket : Bucket} {ps : List ℚ}
    (h : ∀ p ∈ ps, 0 ≤ (alGet bucket p).getD 0) (P : ℚ) :
    0 ≤ Cart.sumUntil bucket ps P := by
  induction ps with
  | nil => simp [Cart.sumUntil]
  | cons p rest ih =>
    by_cases hp : p = P
    · simp [Cart.sumUntil, hp]
    · simp only [Cart.sumUntil, if_neg hp]
      exact add_nonneg (h p (List.mem_cons_self _ _))
        (ih (fun x hx => h x (List.mem_cons_of_mem _ hx)))

theorem removeLoop_frame :
    ∀ (ps : List ℚ) (bucket : Bucket) (rem : ℤ) (P : ℚ), P ∉ ps →
      alGet (Cart.removeLoop bucket ps rem) P = alGet bucket P := by
  intro ps
  induction ps with
  | nil => intro bucket rem P _; rfl
  | cons p rest ih =>
    intro bucket rem P hP
    have hPp : P ≠ p := fun hc => hP (hc ▸ List.mem_cons_self _ _)
    have hPrest : P ∉ rest := fun hc => hP (List.mem_cons_of_mem _ hc)
    by_cases hrem : rem = 0
    · simp [Cart.removeLoop, hrem]
    · simp only [Cart.removeLoop, if_neg hrem]
      cases hg : alGet bucket p with
      | none => exact ih bucket rem P hPrest
      | some available =>
        dsimp only
        by_cases hav : available ≤ rem
        · rw [if_pos hav, ih _ _ P hPrest, alGet_alDel_ne _ _ _ hPp]
        · rw [if_neg hav, ih _ _ P hPrest, alGet_alSet_ne _ _ _ _ hPp]

theorem removeLoop_none :
    ∀ (ps : List ℚ) (bucket : Bucket) (rem : ℤ) (P : ℚ), alGet bucket P = none →
      alGet (Cart.removeLoop bucket ps rem) P = none := by
  intro ps
  induction ps with
  | nil => intro bucket rem P h; exact h
  | cons p rest ih =>
    intro bucket rem P h
    by_cases hrem : rem = 0
    · simp [Cart.removeLoop, hrem, h]
    · simp only [Cart.removeLoop, if_neg hrem]
      cases hg : alGet bucket p with
      | none => exact ih bucket rem P h
      | some available =>
        have hPp : P ≠ p := by
          intro hc
          rw [hc, hg] at h
          cases h
        dsimp only
        by_cases hav : available ≤ rem
        · rw [if_pos hav]
          exact ih _ _ P (by rw [alGet_alDel_ne _ _ _ hPp]; exact h)
        · rw [if_neg hav]
          exact ih _ _ P (by rw [alGet_alSet_ne _ _ _ _ hPp]; exact h)

theorem removeLoop_get :
    ∀ (ps : List ℚ), ps.Pairwise (fun a b => b < a) →
      ∀ (bucket : Bucket), (∀ p ∈ ps, ∃ qp, alGet bucket p = some qp ∧ 0 < qp) →
      ∀ rem : ℤ, 0 ≤ rem →
      ∀ P ∈ ps, ∀ q : ℤ, alGet bucket P = some q →
      alGet (Cart.removeLoop bucket ps rem) P =
        (if min q (max 0 (rem - Cart.sumUntil bucket ps P)) = q then none
         else some (q - min q (max 0 (rem - Cart.sumUntil bucket ps P)))) := by
  intro ps
  induction ps with
  | nil =>
    intro _ _ _ _ _ P hP
    simp at hP
  | cons p rest ih =>
    intro hpair bucket hmem rem hrem P hP q hq
    have hgetDnn : ∀ x ∈ p :: rest, 0 ≤ (alGet bucket x).getD 0 := by
      intro x hx
      obtain ⟨qx, hqx, hqx0⟩ := hmem x hx
      rw [hqx]
      exact le_of_lt hqx0
    obtain ⟨qp, hqp, hqp0⟩ := hmem p (List.mem_cons_self _ _)
    have hq0 : 0 < q := by
      obtain ⟨q', hq', hq'0⟩ := hmem P hP
      rw [hq] at hq'
      cases hq'
      exact hq'0
    have hsU : 0 ≤ Cart.sumUntil bucket rest P :=
      sumUntil_nonneg_of_mem (fun x hx => hgetDnn x (List.mem_cons_of_mem _ hx)) P
    have hsUall : 0 ≤ Cart.sumUntil bucket (p :: rest) P := sumUntil_nonneg_of_mem hgetDnn P
    by_cases hrem0 : rem = 0
    · subst hrem0
      rw [show Cart.removeLoop bucket (p :: rest) 0 = bucket by simp [Cart.removeLoop], hq]
      rw [if_neg (by omega)]
      congr 1
      omega
    · have hrempos : 0 < rem := lt_of_le_of_ne hrem (Ne.symm hrem0)
      rcases List.mem_cons.mp hP with hPp | hPrest
      · subst hPp
        rw [hq] at hqp
        cases hqp
        have hsU0 : Cart.sumUntil bucket (P :: rest) P = 0 := by simp [Cart.sumUntil]
        have hPrest : P ∉ rest := by
          intro hc
          exact absurd ((List.pairwise_cons.mp hpair).1 P hc) (lt_irrefl P)
        rw [hsU0]
        simp only [Cart.removeLoop, if_neg hrem0, hq]
        by_cases hav : q ≤ rem
        · rw [if_pos hav, removeLoop_frame rest _ _ P hPrest, alGet_alDel_self]
          rw [if_pos (by omega)]
        · rw [if_neg hav, removeLoop_frame rest _ _ P hPrest, alGet_alSet_self]
          rw [if_neg (by omega)]
          congr 2
          omega
      · have hpP : P < p := (List.pairwise_cons.mp hpair).1 P hPrest
        have hne : ¬ p = P := fun hc => absurd (hc ▸ hpP) (lt_irrefl p)
        have hPp : P ≠ p := fun hc => hne hc.symm
        have hsUc : Cart.sumUntil bucket (p :: rest) P =
            qp + Cart.sumUntil bucket rest P := by
          simp [Cart.sumUntil, hne, hqp]
        simp only [Cart.removeLoop, if_neg hrem0, hqp]
        by_cases hav : qp ≤ rem
        · rw [if_pos hav]
          have hmem' : ∀ x ∈ rest, ∃ qx, alGet (alDel bucket p) x = some qx ∧ 0 < qx := by
            intro x hx
            have hxp : x ≠ p := fun hc =>
              absurd (hc ▸ (List.pairwise_cons.mp hpair).1 x hx) (lt_irrefl p)
            obtain ⟨qx, hqx, hqx0⟩ := hmem x (List.mem_cons_of_mem _ hx)
            exact ⟨qx, by rw [alGet_alDel_ne _ _ _ hxp]; exact hqx, hqx0⟩
          have hcongr : Cart.sumUntil (alDel bucket p) rest P =
              Cart.sumUntil bucket rest P := by
            apply sumUntil_congr
            intro x hx
            have hxp : x ≠ p := fun hc =>
              absurd (hc ▸ (List.pairwise_cons.mp hpair).1 x hx) (lt_irrefl p)
            exact alGet_alDel_ne _ _ _ hxp
          rw [ih (List.pairwise_cons.mp hpair).2 (alDel bucket p) hmem' (rem - qp)
            (by omega) P hPrest q (by rw [alGet_alDel_ne _ _ _ hPp]; exact hq), hcongr, hsUc]
          have harith : min q (max 0 (rem - qp - Cart.sumUntil bucket rest P)) =
              min q (max 0 (rem - (qp + Cart.sumUntil bucket rest P))) := by omega
          rw [harith]
        · rw [if_neg hav]
          have hmem' : ∀ x ∈ rest, ∃ qx,
              alGet (alSet bucket p (qp - rem)) x = some qx ∧ 0 < qx := by
            intro x hx
            have hxp : x ≠ p := fun hc =>
              absurd (hc ▸ (List.pairwise_cons.mp hpair).1 x hx) (lt_irrefl p)
            obtain ⟨qx, hqx, hqx0⟩ := hmem x (List.mem_cons_of_mem _ hx)
            exact ⟨qx, by rw [alGet_alSet_ne _ _ _ _ hxp]; exact hqx, hqx0⟩
          have hcongr : Cart.sumUntil (alSet bucket p (qp - rem)) rest P =
              Cart.sumUntil bucket rest P := by
            apply sumUntil_congr
            intro x hx
            have hxp : x ≠ p := fun hc =>
              absurd (hc ▸ (List.pairwise_cons.mp hpair).1 x hx) (lt_irrefl p)
            exact alGet_alSet_ne _ _ _ _ hxp
          rw [ih (List.pairwise_cons.mp hpair).2 (alSet bucket p (qp - rem)) hmem' 0
            (le_refl 0) P hPrest q (by rw [alGet_alSet_ne _ _ _ _ hPp]; exact hq),
            hcongr, hsUc]
          have harith : min q (max 0 (0 - Cart.sumUntil bucket rest P)) =
              min q (max 0 (rem - (qp + Cart.sumUntil bucket rest P))) := by omega
          rw [harith]

theorem sum_getD_keys :
    ∀ bucket : Bucket, (bucket.map Prod.fst).Nodup →
      ((bucket.map Prod.fst).map (fun p => (alGet bucket p).getD 0)).sum =
        Cart.sumQuantities bucket := by
  intro bucket
  induction bucket with
  | nil => simp [Cart.sumQuantities]
  | cons e rest ih =>
    intro hnd
    have hnotin : e.1 ∉ rest.map Prod.fst := (List.nodup_cons.mp hnd).1
    have hcongr : (rest.map Prod.fst).map (fun p => (alGet (e :: rest) p).getD 0) =
        (rest.map Prod.fst).map (fun p => (alGet rest p).getD 0) := by
      apply List.map_congr_left
      intro x hx
      have hxe : ¬ e.1 = x := fun hc => hnotin (hc ▸ hx)
      simp [alGet, hxe]
    rw [show Cart.sumQuantities (e :: rest) = e.2 + Cart.sumQuantities rest by
      simp [Cart.sumQuantities]]
    simp only [List.map_cons, List.sum_cons]
    rw [show (alGet (e :: rest) e.1).getD 0 = e.2 by simp [alGet], hcongr,
      ih (List.nodup_cons.mp hnd).2]

theorem sumUntil_add_le {bucket : Bucket} :
    ∀ {ps : List ℚ}, (∀ p ∈ ps, 0 ≤ (alGet bucket p).getD 0) →
      ∀ {P : ℚ}, P ∈ ps → ∀ {q : ℤ}, alGet bucket P = some q →
      Cart.sumUntil bucket ps P + q ≤ (ps.map (fun p => (alGet bucket p).getD 0)).sum := by
  intro ps
  induction ps with
  | nil =>
    intro _ P hP
    simp at hP
  | cons p rest ih =>
    intro hnn P hP q hq
    have hrest : 0 ≤ (rest.map (fun p => (alGet bucket p).getD 0)).sum := by
      apply List.sum_nonneg
      intro x hx
      obtain ⟨y, hy, rfl⟩ := List.mem_map.mp hx
      exact hnn y (List.mem_cons_of_mem _ hy)
    by_cases hpP : p = P
    · subst hpP
      rw [show Cart.sumUntil bucket (p :: rest) p = 0 by simp [Cart.sumUntil]]
      simp only [List.map_cons, List.sum_cons, hq, Option.getD_some]
      omega
    · rw [show Cart.sumUntil bucket (p :: rest) P =
        (alGet bucket p).getD 0 + Cart.sumUntil bucket rest P by
          simp [Cart.sumUntil, hpP]]
      simp only [List.map_cons, List.sum_cons]
      have := ih (fun x hx => hnn x (List.mem_cons_of_mem _ hx))
        (List.mem_of_ne_of_mem (fun hc => hpP hc.symm) hP) hq
      omega

theorem exists_min_desc :
    ∀ ps : List ℚ, ps ≠ [] → ps.Pairwise (fun a b => b < a) →
      ∃ P ∈ ps, ∀ x ∈ ps, x ≠ P → P < x := by
  intro ps
  induction ps with
  | nil => intro h; exact absurd rfl h
  | cons p rest ih =>
    intro _ hpair
    cases rest with
    | nil =>
      refine ⟨p, List.mem_cons_self _ _, ?_⟩
      intro x hx hne
      rw [List.mem_singleton] at hx
      exact absurd hx hne
    | cons y t =>
      obtain ⟨P, hP, hmin⟩ := ih (List.cons_ne_nil _ _) (List.pairwise_cons.mp hpair).2
      refine ⟨P, List.mem_cons_of_mem _ hP, ?_⟩
      intro x hx hne
      rcases List.mem_cons.mp hx with hxp | hxrest
      · subst hxp
        exact (List.pairwise_cons.mp hpair).1 P hP
      · exact hmin x hxrest hne

theorem sumUntil_of_min {bucket : Bucket} :
    ∀ {ps : List ℚ}, ps.Pairwise (fun a b => b < a) →
      ∀ {P : ℚ}, P ∈ ps → (∀ x ∈ ps, x ≠ P → P < x) →
      ∀ {qP : ℤ}, alGet bucket P = some qP →
      Cart.sumUntil bucket ps P + qP = (ps.map (fun p => (alGet bucket p).getD 0)).sum := by
  intro ps
  induction ps with
  | nil =>
    intro _ P hP
    simp at hP
  | cons p rest ih =>
    intro hpair P hP hmin qP hq
    by_cases hpP : p = P
    · subst hpP
      have hrest : rest = [] := by
        cases hr : rest with
        | nil => rfl
        | cons y t =>
          exfalso
          have hy : y ∈ p :: rest := List.mem_cons_of_mem _ (hr ▸ List.mem_cons_self _ _)
          have hylt : y < p := (List.pairwise_cons.mp hpair).1 y (hr ▸ List.mem_cons_self _ _)
          exact absurd (hmin y hy (ne_of_lt hylt)) (not_lt_of_gt hylt)
      subst hrest
      simp [Cart.sumUntil, hq]
    · have hPrest : P ∈ rest := List.mem_of_ne_of_mem (fun hc => hpP hc.symm) hP
      rw [show Cart.sumUntil bucket (p :: rest) P =
        (alGet bucket p).getD 0 + Cart.sumUntil bucket rest P by
          simp [Cart.sumUntil, hpP]]
      simp only [List.map_cons, List.sum_cons]
      rw [add_assoc, ih (List.pairwise_cons.mp hpair).2 hPrest
        (fun x hx hne => hmin x (List.mem_cons_of_mem _ hx) hne) hq]

theorem sumUntil_filter_desc (bucket : Bucket) :
    ∀ ps : List ℚ, ps.Pairwise (fun a b => b < a) → ∀ P ∈ ps,
      Cart.sumUntil bucket ps P =
        ((ps.filter (fun x => decide (P < x))).map (fun p => (alGet bucket p).getD 0)).sum := by
  intro ps
  induction ps with
  | nil =>
    intro _ P hP
    simp at hP
  | cons p rest ih =>
    intro hpair P hP
    rcases List.mem_cons.mp hP with hPp | hPrest
    · subst hPp
      have hrest : rest.filter (fun x => decide (P < x)) = [] := by
        rw [List.filter_eq_nil_iff]
        intro x hx
        simpa using not_lt_of_gt ((List.pairwise_cons.mp hpair).1 x hx)
      simp [Cart.sumUntil, List.filter_cons, hrest]
    · have hpP : P < p := (List.pairwise_cons.mp hpair).1 P hPrest
      have hne : ¬ p = P := fun hc => absurd (hc ▸ hpP) (lt_irrefl p)
      rw [show Cart.sumUntil bucket (p :: rest) P =
        (alGet bucket p).getD 0 + Cart.sumUntil bucket rest P by simp [Cart.sumUntil, hne]]
      rw [ih (List.pairwise_cons.mp hpair).2 P hPrest]
      simp [List.filter_cons, hpP]

theorem sum_getD_filter_keys_above (P : ℚ) :
    ∀ bucket : Bucket, (bucket.map Prod.fst).Nodup →
      (((bucket.map Prod.fst).filter (fun x => decide (P < x))).map
        (fun p => (alGet bucket p).getD 0)).sum = Cart.sumAbove bucket P := by
  intro bucket
  induction bucket with
  | nil => simp [Cart.sumAbove]
  | cons e rest ih =>
    intro hnd
    have hnotin : e.1 ∉ rest.map Prod.fst := (List.nodup_cons.mp hnd).1
    have hcongr :
        ((rest.map Prod.fst).filter (fun x => decide (P < x))).map
            (fun p => (alGet (e :: rest) p).getD 0) =
          ((rest.map Prod.fst).filter (fun x => decide (P < x))).map
            (fun p => (alGet rest p).getD 0) := by
      apply List.map_congr_left
      intro x hx
      have hxr : x ∈ rest.map Prod.fst := List.mem_of_mem_filter hx
      have hxe : ¬ e.1 = x := fun hc => hnotin (hc ▸ hxr)
      simp [alGet, hxe]
    have hself : (alGet (e :: rest) e.1).getD 0 = e.2 := by simp [alGet]
    by_cases hP : P < e.1
    · rw [show Cart.sumAbove (e :: rest) P = e.2 + Cart.sumAbove rest P by
        simp [Cart.sumAbove, List.filter_cons, hP]]
      simp only [List.map_cons, List.filter_cons, decide_eq_true_eq, hP, if_pos trivial]
      rw [List.sum_cons, hself, hcongr, ih (List.nodup_cons.mp hnd).2]
    · rw [show Cart.sumAbove (e :: rest) P = Cart.sumAbove rest P by
        simp [Cart.sumAbove, List.filter_cons, hP]]
      simp only [List.map_cons, List.filter_cons, decide_eq_true_eq, hP, if_false]
      rw [hcongr, ih (List.nodup_cons.mp hnd).2]

theorem sumUntil_eq_sumAbove (bucket : Bucket) (hnd : (bucket.map Prod.fst).Nodup)
    (ps : List ℚ) (hperm : ps.Perm (bucket.map Prod.fst))
    (hpair : ps.Pairwise (fun a b => b < a)) (P : ℚ) (hP : P ∈ ps) :
    Cart.sumUntil bucket ps P = Cart.sumAbove bucket P := by
  rw [sumUntil_filter_desc bucket ps hpair P hP]
  rw [List.Perm.sum_eq ((hperm.filter _).map _)]
  exact sum_getD_filter_keys_above P bucket hnd

/-- C5: for a well-formed cart holding `R` with total quantity at least `q > 0`,
`remove R q` succeeds, leaves the promotions and the other references
untouched, and consumes most-expensive-first: every price entry keeps
`qty - min(qty, max(0, q - sumAbove))` units (the descending-greedy closed
form), an entry consumed to zero is deleted, and when `q` equals the whole
total the reference itself is deleted and later queries fail
`ReferenceNotFound`. -/
theorem claim_C5 (c : Cart) (R : String) (q : ℤ) (bucket : Bucket)
    (hwf : Cart.Wf c) (hb : alGet c.items R = some bucket)
    (hq : 0 < q) (hle : q ≤ Cart.sumQuantities bucket) :
    ∃ c' : Cart, Cart.remove c R q = .ok c' ∧
      c'.promotions = c.promotions ∧
      (∀ r', r' ≠ R → alGet c'.items r' = alGet c.items r') ∧
      (q = Cart.sumQuantities bucket →
        alGet c'.items R = none ∧
        Cart.getQuantity c' R none = .error .referenceNotFound) ∧
      (q < Cart.sumQuantities bucket →
        ∃ b', alGet c'.items R = some b' ∧
          (∀ P qty, alGet bucket P = some qty →
            alGet b' P =
              (if min qty (max 0 (q - Cart.sumAbove bucket P)) = qty then none
               else some (qty - min qty (max 0 (q - Cart.sumAbove bucket P))))) ∧
          (∀ P, alGet bucket P = none → alGet b' P = none)) := by
  obtain ⟨hRt, hRne, hbne, hwfb⟩ := hwf.2.1 _ (alGet_mem hb)
  have hpos : ∀ pq ∈ bucket, 0 < pq.2 := fun pq h => (hwfb.2 pq h).2
  have hpair := sortPrices_desc_pairwise bucket hwfb.1
  have hperm := sortPrices_perm bucket false
  have hmem : ∀ p ∈ Cart.sortPrices bucket false, ∃ qp, alGet bucket p = some qp ∧ 0 < qp := by
    intro p hp
    have hpk : p ∈ bucket.map Prod.fst := hperm.mem_iff.mp hp
    cases hg : alGet bucket p with
    | none => exact absurd hpk ((alGet_eq_none_iff _ _).mp hg)
    | some qp => exact ⟨qp, rfl, hpos _ (alGet_mem hg)⟩
  have hgetDnn : ∀ p ∈ Cart.sortPrices bucket false, 0 ≤ (alGet bucket p).getD 0 := by
    intro p hp
    obtain ⟨qp, hqp, hqp0⟩ := hmem p hp
    rw [hqp]
    exact le_of_lt hqp0
  have hchar : ∀ P qty, alGet bucket P = some qty →
      alGet (Cart.removeLoop bucket (Cart.sortPrices bucket false) q) P =
        (if min qty (max 0 (q - Cart.sumAbove bucket P)) = qty then none
         else some (qty - min qty (max 0 (q - Cart.sumAbove bucket P)))) := by
    intro P qty hqty
    have hPmem : P ∈ Cart.sortPrices bucket false :=
      hperm.mem_iff.mpr (List.mem_map.mpr ⟨(P, qty), alGet_mem hqty, rfl⟩)
    rw [removeLoop_get _ hpair bucket hmem q (le_of_lt hq) P hPmem qty hqty,
      sumUntil_eq_sumAbove bucket hwfb.1 _ hperm hpair P hPmem]
  have hsum : ((Cart.sortPrices bucket false).map (fun p => (alGet bucket p).getD 0)).sum =
      Cart.sumQuantities bucket := by
    rw [List.Perm.sum_eq (hperm.map _), sum_getD_keys bucket hwfb.1]
  have hrm : Cart.remove c R q =
      (if Cart.removeLoop bucket (Cart.sortPrices bucket false) q = [] then
        Except.ok { c with items := alDel c.items R }
      else Except.ok { c with
        items := alSet c.items R (Cart.removeLoop bucket (Cart.sortPrices bucket false) q) }) := by
    unfold Cart.remove
    rw [getExistingBucket_ok hRt hRne hb, except_bind_ok]
    dsimp only
    rw [assertQuantity_ok hq, except_bind_ok, if_neg (not_lt.mpr hle)]
  rcases eq_or_lt_of_le hle with heq | hlt
  · have hempty : Cart.removeLoop bucket (Cart.sortPrices bucket false) q = [] := by
      apply eq_nil_of_alGet_none
      intro k
      cases hg : alGet bucket k with
      | none => exact removeLoop_none _ bucket q k hg
      | some qty =>
        have hkmem : k ∈ Cart.sortPrices bucket false :=
          hperm.mem_iff.mpr (List.mem_map.mpr ⟨(k, qty), alGet_mem hg, rfl⟩)
        have hub := sumUntil_add_le hgetDnn hkmem hg
        rw [hsum, sumUntil_eq_sumAbove bucket hwfb.1 _ hperm hpair k hkmem] at hub
        rw [hchar k qty hg, if_pos (by omega)]
    refine ⟨{ c with items := alDel c.items R }, ?_, rfl, ?_, ?_, ?_⟩
    · rw [hrm, if_pos hempty]
    · intro r' hr'
      exact alGet_alDel_ne _ _ _ hr'
    · intro _
      refine ⟨alGet_alDel_self _ _, ?_⟩
      unfold Cart.getQuantity Cart.getExistingBucket Cart.resolveBucket
      rw [normalizeReference_ok hRt hRne, except_bind_ok]
      dsimp only
      rw [alGet_alDel_self]
      rfl
    · intro hlt'
      omega
  · have hnonempty : Cart.removeLoop bucket (Cart.sortPrices bucket false) q ≠ [] := by
      have hpsne : Cart.sortPrices bucket false ≠ [] := by
        intro hnil
        have h0 := hperm
        rw [hnil] at h0
        have h1 : bucket.map Prod.fst = [] := h0.symm.eq_nil
        exact hbne (List.map_eq_nil_iff.mp h1)
      obtain ⟨Pm, hPm, hmin⟩ := exists_min_desc _ hpsne hpair
      obtain ⟨qm, hqm, hqm0⟩ := hmem Pm hPm
      have hsmin := sumUntil_of_min hpair hPm hmin hqm
      rw [hsum] at hsmin
      rw [sumUntil_eq_sumAbove bucket hwfb.1 _ hperm hpair Pm hPm] at hsmin
      intro hnil
      have hcm := hchar Pm qm hqm
      rw [hnil, if_neg (by omega)] at hcm
      simp [alGet] at hcm
    refine ⟨{ c with
        items := alSet c.items R (Cart.removeLoop bucket (Cart.sortPrices bucket false) q) },
      ?_, rfl, ?_, ?_, ?_⟩
    · rw [hrm, if_neg hnonempty]
    · intro r' hr'
      exact alGet_alSet_ne _ _ _ _ hr'
    · intro heq'
      omega
    · intro _
      exact ⟨Cart.removeLoop bucket (Cart.sortPrices bucket false) q,
        alGet_alSet_self _ _ _, hchar, fun P hP => removeLoop_none _ bucket q P hP⟩

/-- Witness for C5: `add('A',10,2); add('A',12,3); remove('A',4)` through the
theorem (price 12 drained fully, price 10 keeps one unit). -/
theorem claim_C5_witness :
    ∃ c' : Cart,
      Cart.remove (⟨[("A", [((10 : ℚ), (2 : ℤ)), ((12 : ℚ), (3 : ℤ))])], []⟩ : Cart) "A" 4 =
        .ok c' ∧
      c'.promotions =
        (⟨[("A", [((10 : ℚ), (2 : ℤ)), ((12 : ℚ), (3 : ℤ))])], []⟩ : Cart).promotions ∧
      (∀ r', r' ≠ "A" → alGet c'.items r' =
        alGet (⟨[("A", [((10 : ℚ), (2 : ℤ)), ((12 : ℚ), (3 : ℤ))])], []⟩ : Cart).items r') ∧
      ((4 : ℤ) = Cart.sumQuantities [((10 : ℚ), (2 : ℤ)), ((12 : ℚ), (3 : ℤ))] →
        alGet c'.items "A" = none ∧
        Cart.getQuantity c' "A" none = .error .referenceNotFound) ∧
      ((4 : ℤ) < Cart.sumQuantities [((10 : ℚ), (2 : ℤ)), ((12 : ℚ), (3 : ℤ))] →
        ∃ b', alGet c'.items "A" = some b' ∧
          (∀ P qty, alGet [((10 : ℚ), (2 : ℤ)), ((12 : ℚ), (3 : ℤ))] P = some qty →
            alGet b' P =
              (if min qty (max 0 (4 - Cart.sumAbove [((10 : ℚ), (2 : ℤ)), ((12 : ℚ), (3 : ℤ))] P)) =
                  qty then none
               else some (qty - min qty
                (max 0 (4 - Cart.sumAbove [((10 : ℚ), (2 : ℤ)), ((12 : ℚ), (3 : ℤ))] P))))) ∧
          (∀ P, alGet [((10 : ℚ), (2 : ℤ)), ((12 : ℚ), (3 : ℤ))] P = none →
            alGet b' P = none)) :=
  claim_C5 ⟨[("A", [((10 : ℚ), (2 : ℤ)), ((12 : ℚ), (3 : ℤ))])], []⟩ "A" 4
    [((10 : ℚ), (2 : ℤ)), ((12 : ℚ), (3 : ℤ))] (by decide) (by decide) (by decide) (by decide)

/-! ## Invariant preservation -/

theorem assertPrice_ok_inv {p : ℚ} {u : Unit} (h : Cart.assertPrice p = .ok u) : 0 < p := by
  unfold Cart.assertPrice at h
  by_cases hp : p ≤ 0
  · rw [if_pos hp] at h
    cases h
  · exact not_le.mp hp

theorem assertQuantity_ok_inv {q : ℤ} {u : Unit} (h : Cart.assertQuantity q = .ok u) : 0 < q := by
  unfold Cart.assertQuantity at h
  by_cases hq : q ≤ 0
  · rw [if_pos hq] at h
    cases h
  · exact not_le.mp hq

theorem assertThreshold_ok_inv {t : ℤ} {u : Unit} (h : Cart.assertThreshold t = .ok u) :
    2 ≤ t := by
  unfold Cart.assertThreshold at h
  by_cases ht : t < 2
  · rw [if_pos ht] at h
    cases h
  · exact not_lt.mp ht

theorem alSet_alSet {α β : Type} [DecidableEq α] (l : List (α × β)) (k : α) (v₁ v₂ : β) :
    alSet (alSet l k v₁) k v₂ = alSet l k v₂ := by
  induction l with
  | nil => simp [alSet]
  | cons e l ih =>
    by_cases he : e.1 = k
    · simp [alSet, he]
    · simp [alSet, he, ih]

theorem promoWf_activate {r : PromotionRule} (h : Cart.PromoWf r) :
    Cart.PromoWf r.activate := by
  cases r with
  | percent pr => trivial
  | buyNGetOne pr => exact h

theorem wf_items_alSet {c : Cart} (hwf : Cart.Wf c) {K : String} {newB : Bucket}
    (hKt : jsTrim K = K) (hKne : K ≠ "") (hBne : newB ≠ []) (hBwf : Cart.BucketWf newB) :
    Cart.Wf { c with items := alSet c.items K newB } := by
  refine ⟨keys_alSet_nodup _ _ _ hwf.1, ?_, hwf.2.2.1, hwf.2.2.2⟩
  intro rb hrb
  rcases mem_alSet hrb with hold | hnew
  · exact hwf.2.1 rb hold
  · subst hnew
    exact ⟨hKt, hKne, hBne, hBwf⟩

theorem bucketWf_alSet_add {bucket : Bucket} (hwfb : Cart.BucketWf bucket) {p : ℚ} {q : ℤ}
    (hp : 0 < p) (hq : 0 < q) :
    Cart.BucketWf (alSet bucket p ((alGet bucket p).getD 0 + q)) := by
  refine ⟨keys_alSet_nodup _ _ _ hwfb.1, ?_⟩
  intro pq hpq
  rcases mem_alSet hpq with hold | hnew
  · exact hwfb.2 pq hold
  · subst hnew
    refine ⟨hp, ?_⟩
    have h0 : 0 ≤ (alGet bucket p).getD 0 :=
      alGet_getD_nonneg (fun x hx => (hwfb.2 x hx).2) p
    omega

theorem bucketWf_alDel {bucket : Bucket} (hwfb : Cart.BucketWf bucket) (p : ℚ) :
    Cart.BucketWf (alDel bucket p) :=
  ⟨keys_alDel_nodup _ _ hwfb.1, fun pq hpq => hwfb.2 pq (mem_alDel hpq)⟩

theorem removeLoop_preserves :
    ∀ (ps : List ℚ) (bucket : Bucket) (rem : ℤ),
      Cart.BucketWf bucket → Cart.BucketWf (Cart.removeLoop bucket ps rem) := by
  intro ps
  induction ps with
  | nil => intro bucket rem hwfb; exact hwfb
  | cons p rest ih =>
    intro bucket rem hwfb
    by_cases hrem : rem = 0
    · simpa [Cart.removeLoop, hrem] using hwfb
    · simp only [Cart.removeLoop, if_neg hrem]
      cases hg : alGet bucket p with
      | none => exact ih bucket rem hwfb
      | some available =>
        dsimp only
        have hpmem := alGet_mem hg
        have hppos : 0 < p := (hwfb.2 _ hpmem).1
        by_cases hav : available ≤ rem
        · rw [if_pos hav]
          exact ih _ _ (bucketWf_alDel hwfb p)
        · rw [if_neg hav]
          apply ih
          refine ⟨keys_alSet_nodup _ _ _ hwfb.1, ?_⟩
          intro pq hpq
          rcases mem_alSet hpq with hold | hnew
          · exact hwfb.2 pq hold
          · subst hnew
            exact ⟨hppos, by omega⟩

theorem empty_wf : Cart.Wf Cart.empty := by decide

theorem add_wf {c c' : Cart} {r : String} {p : ℚ} {q : ℤ}
    (hwf : Cart.Wf c) (h : Cart.add c r p q = .ok c') : Cart.Wf c' := by
  unfold Cart.add at h
  cases hap : Cart.assertPrice p with
  | error e =>
    rw [hap, except_bind_error] at h
    cases h
  | ok u =>
    have hp := assertPrice_ok_inv hap
    rw [hap, except_bind_ok] at h
    cases haq : Cart.assertQuantity q with
    | error e =>
      rw [haq, except_bind_error] at h
      cases h
    | ok u2 =>
      have hq := assertQuantity_ok_inv haq
      rw [haq, except_bind_ok] at h
      unfold Cart.getOrCreateBucket Cart.resolveBucket at h
      cases hn : Cart.normalizeReference r with
      | error e =>
        rw [hn, except_bind_error] at h
        cases h
      | ok refKey =>
        obtain ⟨hne, hkey⟩ := normalizeReference_ok_iff.mp hn
        have hKt : jsTrim refKey = refKey := by rw [hkey, jsTrim_idem]
        have hKne : refKey ≠ "" := by rw [hkey]; exact hne
        rw [hn, except_bind_ok] at h
        cases hg : alGet c.items refKey with
        | some bucket =>
          rw [hg] at h
          dsimp only at h
          rw [except_bind_ok] at h
          dsimp only at h
          cases h
          exact wf_items_alSet hwf hKt hKne (alSet_ne_nil _ _ _)
            (bucketWf_alSet_add (hwf.2.1 _ (alGet_mem hg)).2.2.2 hp hq)
        | none =>
          rw [hg] at h
          dsimp only at h
          rw [if_pos rfl, except_bind_ok] at h
          dsimp only at h
          rw [alSet_alSet] at h
          cases h
          exact wf_items_alSet hwf hKt hKne (alSet_ne_nil _ _ _)
            (bucketWf_alSet_add ⟨by simp, by intro pq hpq; simp at hpq⟩ hp hq)

theorem remove_wf {c c' : Cart} {r : String} {q : ℤ}
    (hwf : Cart.Wf c) (h : Cart.remove c r q = .ok c') : Cart.Wf c' := by
  unfold Cart.remove Cart.getExistingBucket Cart.resolveBucket at h
  cases hn : Cart.normalizeReference r with
  | error e =>
    rw [hn, except_bind_error] at h
    cases h
  | ok refKey =>
    rw [hn, except_bind_ok] at h
    cases hg : alGet c.items refKey with
    | none =>
      rw [hg] at h
      dsimp only at h
      rw [if_neg Bool.false_ne_true, except_bind_error] at h
      cases h
    | some bucket =>
      rw [hg] at h
      dsimp only at h
      rw [except_bind_ok] at h
      dsimp only at h
      cases haq : Cart.assertQuantity q with
      | error e =>
        rw [haq, except_bind_error] at h
        cases h
      | ok u =>
        rw [haq, except_bind_ok] at h
        obtain ⟨hKt, hKne, hbne, hwfb⟩ := hwf.2.1 _ (alGet_mem hg)
        by_cases hins : Cart.sumQuantities bucket < q
        · rw [if_pos hins] at h
          cases h
        · rw [if_neg hins] at h
          by_cases hnil :
              Cart.removeLoop bucket (Cart.sortPrices bucket false) q = []
          · rw [if_pos hnil] at h
            cases h
            exact ⟨keys_alDel_nodup _ _ hwf.1,
              fun rb hrb => hwf.2.1 rb (mem_alDel hrb), hwf.2.2.1, hwf.2.2.2⟩
          · rw [if_neg hnil] at h
            cases h
            exact wf_items_alSet hwf hKt hKne hnil
              (removeLoop_preserves _ bucket q hwfb)

theorem registerPromotion_wf {c c' : Cart} {code ref : String} {pct : ℤ} {mp : Option ℚ}
    (hwf : Cart.Wf c) (h : Cart.registerPromotion c code ref pct mp = .ok c') :
    Cart.Wf c' := by
  unfold Cart.registerPromotion at h
  cases hnc : Cart.normalizePromotionCode code with
  | error e =>
    rw [hnc, except_bind_error] at h
    cases h
  | ok promoCode =>
    rw [hnc, except_bind_ok] at h
    cases hnr : Cart.normalizeReference ref with
    | error e =>
      rw [hnr, except_bind_error] at h
      cases h
    | ok refKey =>
      rw [hnr, except_bind_ok] at h
      cases hap : Cart.assertPercent pct with
      | error e =>
        rw [hap, except_bind_error] at h
        cases h
      | ok u =>
        rw [hap, except_bind_ok] at h
        have htail : ∀ c'' : Cart,
            (if alHas c.items refKey = true then
              (Except.error CartError.promotionReferenceConflict : Except CartError Cart)
            else if alHas c.promotions promoCode = true then
              Except.error CartError.promotionCodeConflict
            else
              Except.ok
                { c with
                  promotions :=
                    alSet c.promotions promoCode (.percent ⟨refKey, pct, mp, false⟩) }) =
              .ok c'' → Cart.Wf c'' := by
          intro c'' hc
          by_cases h1 : alHas c.items refKey = true
          · rw [if_pos h1] at hc
            cases hc
          · rw [if_neg h1] at hc
            by_cases h2 : alHas c.promotions promoCode = true
            · rw [if_pos h2] at hc
              cases hc
            · rw [if_neg h2] at hc
              cases hc
              refine ⟨hwf.1, hwf.2.1, keys_alSet_nodup _ _ _ hwf.2.2.1, ?_⟩
              intro e he
              rcases mem_alSet he with hold | hnew
              · exact hwf.2.2.2 e hold
              · subst hnew
                trivial
        cases mp with
        | none =>
          dsimp only at h
          rw [except_bind_ok] at h
          exact htail c' h
        | some x =>
          dsimp only at h
          cases hax : Cart.assertPrice x with
          | error e =>
            rw [hax, except_bind_error] at h
            cases h
          | ok u2 =>
            rw [hax, except_bind_ok] at h
            exact htail c' h

theorem registerBuyNGetOne_wf {c c' : Cart} {code ref : String} {t : ℤ}
    (hwf : Cart.Wf c) (h : Cart.registerBuyNGetOnePromotion c code ref t = .ok c') :
    Cart.Wf c' := by
  unfold Cart.registerBuyNGetOnePromotion at h
  cases hnc : Cart.normalizePromotionCode code with
  | error e =>
    rw [hnc, except_bind_error] at h
    cases h
  | ok promoCode =>
    rw [hnc, except_bind_ok] at h
    cases hnr : Cart.normalizeReference ref with
    | error e =>
      rw [hnr, except_bind_error] at h
      cases h
    | ok refKey =>
      rw [hnr, except_bind_ok] at h
      cases hat : Cart.assertThreshold t with
      | error e =>
        rw [hat, except_bind_error] at h
        cases h
      | ok u =>
        have ht := assertThreshold_ok_inv hat
        rw [hat, except_bind_ok] at h
        by_cases h1 : alHas c.items refKey = true
        · rw [if_pos h1] at h
          cases h
        · rw [if_neg h1] at h
          by_cases h2 : alHas c.promotions promoCode = true
          · rw [if_pos h2] at h
            cases h
          · rw [if_neg h2] at h
            cases h
            refine ⟨hwf.1, hwf.2.1, keys_alSet_nodup _ _ _ hwf.2.2.1, ?_⟩
            intro e he
            rcases mem_alSet he with hold | hnew
            · exact hwf.2.2.2 e hold
            · subst hnew
              exact ht

theorem activatePromotion_wf {c c' : Cart} {code : String} {b : Bool}
    (hwf : Cart.Wf c) (h : Cart.activatePromotion c code = .ok (b, c')) : Cart.Wf c' := by
  unfold Cart.activatePromotion at h
  cases hnc : Cart.normalizePromotionCode code with
  | error e =>
    rw [hnc, except_bind_error] at h
    cases h
  | ok promoCode =>
    rw [hnc, except_bind_ok] at h
    cases hg : alGet c.promotions promoCode with
    | none =>
      rw [hg] at h
      cases h
      exact hwf
    | some promotion =>
      rw [hg] at h
      dsimp only at h
      by_cases ha : promotion.activated = true
      · rw [if_pos ha] at h
        cases h
        exact hwf
      · rw [if_neg ha] at h
        by_cases hh : Cart.hasActivePromotionForReference c promotion.reference
            (some promoCode) = true
        · rw [if_pos hh] at h
          cases h
          exact hwf
        · rw [if_neg hh] at h
          cases h
          refine ⟨hwf.1, hwf.2.1, keys_alSet_nodup _ _ _ hwf.2.2.1, ?_⟩
          intro e he
          rcases mem_alSet he with hold | hnew
          · exact hwf.2.2.2 e hold
          · subst hnew
            exact promoWf_activate (hwf.2.2.2 _ (alGet_mem hg))

theorem getUnitPrices_state {c c' : Cart} {r : String} {v : List ℚ}
    (h : Cart.getUnitPrices c r = .ok (v, c')) : c' = c := by
  unfold Cart.getUnitPrices at h
  cases hg : Cart.getExistingBucket c r with
  | error e =>
    rw [hg, except_bind_error] at h
    cases h
  | ok t =>
    obtain ⟨k, b, c₁⟩ := t
    rw [hg, except_bind_ok] at h
    dsimp only at h
    unfold Cart.getExistingBucket at hg
    cases h
    exact resolveBucket_false_state hg

theorem getQuantity_state {c c' : Cart} {r : String} {po : Option ℚ} {v : ℤ}
    (h : Cart.getQuantity c r po = .ok (v, c')) : c' = c := by
  unfold Cart.getQuantity at h
  cases hg : Cart.getExistingBucket c r with
  | error e =>
    rw [hg, except_bind_error] at h
    cases h
  | ok t =>
    obtain ⟨k, b, c₁⟩ := t
    rw [hg, except_bind_ok] at h
    dsimp only at h
    unfold Cart.getExistingBucket at hg
    cases po with
    | none =>
      cases h
      exact resolveBucket_false_state hg
    | some pp =>
      dsimp only at h
      cases hqp : Cart.getQuantityForPrice b pp with
      | error e =>
        rw [hqp, except_bind_error] at h
        cases h
      | ok qv =>
        rw [hqp, except_bind_ok] at h
        cases h
        exact resolveBucket_false_state hg

theorem getAmount_state {c c' : Cart} {r : String} {p : ℚ} {v : ℚ}
    (h : Cart.getAmount c r p = .ok (v, c')) : c' = c := by
  unfold Cart.getAmount at h
  cases hg : Cart.getExistingBucket c r with
  | error e =>
    rw [hg, except_bind_error] at h
    cases h
  | ok t =>
    obtain ⟨k, b, c₁⟩ := t
    rw [hg, except_bind_ok] at h
    dsimp only at h
    unfold Cart.getExistingBucket at hg
    cases hqp : Cart.getQuantityForPrice b p with
    | error e =>
      rw [hqp, except_bind_error] at h
      cases h
    | ok qv =>
      rw [hqp, except_bind_ok] at h
      cases h
      exact resolveBucket_false_state hg

/-- C7: every cart state reachable from the fresh cart through the public
operations is well-formed: reference keys are distinct and normalized, every
stored reference holds a non-empty bucket, no bucket has two entries at the
same price, and every stored quantity (and price) is positive; each
operation, and each failing run (which in this embedding produces no new
state, mirroring throw-before-mutation in the source), preserves this. -/
theorem claim_C7 (c : Cart) (h : Cart.Reachable c) :
    Cart.Wf c ∧
    ∀ rb ∈ c.items, rb.2 ≠ [] ∧ (rb.2.map Prod.fst).Nodup ∧ ∀ pq ∈ rb.2, 0 < pq.2 := by
  have hwf : Cart.Wf c := by
    induction h with
    | empty => exact empty_wf
    | add hr hok ih => exact add_wf ih hok
    | remove hr hok ih => exact remove_wf ih hok
    | registerPromotion hr hok ih => exact registerPromotion_wf ih hok
    | registerBuyNGetOne hr hok ih => exact registerBuyNGetOne_wf ih hok
    | activatePromotion hr hok ih => exact activatePromotion_wf ih hok
    | getUnitPrices hr hok ih => exact (getUnitPrices_state hok) ▸ ih
    | getQuantity hr hok ih => exact (getQuantity_state hok) ▸ ih
    | getAmount hr hok ih => exact (getAmount_state hok) ▸ ih
  refine ⟨hwf, ?_⟩
  intro rb hrb
  obtain ⟨-, -, hbne, hnd, hpos⟩ := hwf.2.1 rb hrb
  exact ⟨hbne, hnd, fun pq hpq => (hpos pq hpq).2⟩

/-- Witness for C7: the cart reached by `add('A',10,2)` from a fresh cart. -/
theorem claim_C7_witness :
    Cart.Wf (⟨[("A", [((10 : ℚ), (2 : ℤ))])], []⟩ : Cart) ∧
    ∀ rb ∈ ([("A", [((10 : ℚ), (2 : ℤ))])] : List (String × Bucket)),
      rb.2 ≠ [] ∧ (rb.2.map Prod.fst).Nodup ∧ ∀ pq ∈ rb.2, 0 < pq.2 :=
  claim_C7 ⟨[("A", [((10 : ℚ), (2 : ℤ))])], []⟩
    (@Cart.Reachable.add Cart.empty ⟨[("A", [((10 : ℚ), (2 : ℤ))])], []⟩ "A" 10 2
      Cart.Reachable.empty (by decide))
